import Mathlib

/-!
# TinyWebServer: request parsing, routing and the per-connection pipeline

A shallow embedding of `ServerBase.hpp` (`parse_request`, `respond`,
`process_request_and_respond`, `start`) together with the library behaviour
the code relies on (`std::getline`, `std::string::pop_back`, `std::stoull`,
`std::stof`, `std::map` iteration order, `std::unordered_map::operator[]`).

Strings are byte sequences (`List Char`).  Undefined behaviour and C++
exceptions are explicit outcomes of the functions that can reach them.
-/

namespace WebServer

/-- A `std::string`, as its sequence of bytes. -/
abbrev Str := List Char

/-- The exceptions the standard library calls used by the server can throw. -/
inductive StdException
  | invalid_argument
  | out_of_range
  | bad_function_call
  | regex_error
  deriving DecidableEq, Repr

/-- Abnormal outcomes of a piece of server code. `undefined_behaviour` is
`line.pop_back()` executed on an empty string; `throws e` is a C++ exception
leaving the function; `out_of_fuel` is an artefact of the bounded loop of the
embedding (shown unreachable in `parse_request_fuel`). -/
inductive Fault
  | undefined_behaviour
  | throws (e : StdException)
  | out_of_fuel
  deriving DecidableEq, Repr

/-! ## Strings and streams -/

/-- Remove `p` from the front of `s` when `s` starts with `p`. -/
def strip_leading : Str → Str → Option Str
  | [], s => some s
  | _ :: _, [] => none
  | p :: ps, c :: cs => if p = c then strip_leading ps cs else none

/-- Characters of a stream buffer up to the first `'\n'`, and what follows that
`'\n'` (`none` when the buffer has no `'\n'`). -/
def read_line : Str → Str × Option Str
  | [] => ([], none)
  | c :: cs =>
    if c = '\n' then ([], some cs)
    else ((c :: (read_line cs).1), (read_line cs).2)

/-- A `std::istream` reading from a stream buffer: the unread bytes and whether
the stream is still `good()` (neither `eofbit` nor `failbit` set). -/
structure IStream where
  buf : Str
  good : Bool
  deriving DecidableEq, Repr

/-- The call `getline(stream, line)`. On a stream that is not good the sentry
fails and `line` is left as it was. Otherwise `line` is erased and filled with
the characters up to the next `'\n'`, which is extracted and dropped; reaching
the end of the buffer first sets `eofbit` (and `failbit` when nothing was
extracted). -/
def getline (stream : IStream) (line : Str) : IStream × Str :=
  if stream.good then
    match read_line stream.buf with
    | (l, some rest) => ({ buf := rest, good := true }, l)
    | (l, none) => ({ buf := [], good := false }, l)
  else (stream, line)

/-- The call `line.pop_back()`: undefined on an empty string. -/
def pop_back (line : Str) : Except Fault Str :=
  match line with
  | [] => .error .undefined_behaviour
  | _ :: _ => .ok line.dropLast

/-! ## The two regular expressions of `parse_request` -/

/-- The call `regex_match(line, sub_match, e)` for
`e = "^([^ ]*) ([^ ]*) HTTP/([^ ]*)$"`, returning the three captures. A class
`[^ ]` takes every character but the space, so the first group is the text
before the first space, the second the text up to the next space, and the
third the rest, which must hold no space. -/
def regex_match_request_line (line : Str) : Option (Str × Str × Str) :=
  match strip_leading [' '] (line.dropWhile (· ≠ ' ')) with
  | none => none
  | some r1 =>
    match strip_leading [' ', 'H', 'T', 'T', 'P', '/'] (r1.dropWhile (· ≠ ' ')) with
    | none => none
    | some v =>
      if v.all (· ≠ ' ') then
        some (line.takeWhile (· ≠ ' '), r1.takeWhile (· ≠ ' '), v)
      else none

/-- What ` ?` followed by `(.*)` captures from the text after the colon: one
leading space is skipped when present. -/
def skip_space : Str → Str
  | [] => []
  | c :: cs => if c = ' ' then cs else c :: cs

/-- The call `regex_match(line, sub_match, e)` for `e = "^([^:]*): ?(.*)$"`,
returning the two captures. The name is the text before the first colon; `.`
matches every character except `'\n'` and `'\r'`, so the text after the colon
must hold neither. -/
def regex_match_header_line (line : Str) : Option (Str × Str) :=
  match strip_leading [':'] (line.dropWhile (· ≠ ':')) with
  | none => none
  | some r =>
    if r.all (fun c => c ≠ '\n' ∧ c ≠ '\r') then
      some (line.takeWhile (· ≠ ':'), skip_space r)
    else none

/-! ## Requests -/

/-- A `std::unordered_map<std::string, V>` as an association list with
distinct keys. -/
abbrev UMap (V : Type) := List (Str × V)

/-- The value stored under `k`, if any (`m.find(k)`). -/
def UMap.find {V : Type} : UMap V → Str → Option V
  | [], _ => none
  | (k', v) :: rest, k => if k' = k then some v else UMap.find rest k

/-- The call `m.count(k)`. -/
def UMap.count {V : Type} (m : UMap V) (k : Str) : Nat :=
  if (UMap.find m k).isSome then 1 else 0

/-- The statement `m[k] = v`: overwrite the value under `k`, or add the key. -/
def UMap.assign {V : Type} : UMap V → Str → V → UMap V
  | [], k, v => [(k, v)]
  | (k', v') :: rest, k, v =>
    if k' = k then (k', v) :: rest else (k', v') :: UMap.assign rest k v

/-- The struct `Request`. `content` is `none` for a null stream pointer and
otherwise the bytes the stream yields; `path_match` is the `smatch` of the
route: the whole match followed by the captures, empty when never assigned. -/
structure Request where
  method : Str := []
  path : Str := []
  http_version : Str := []
  content : Option Str := none
  header : UMap Str := []
  path_match : List Str := []
  deriving DecidableEq, Repr

/-- The `do ... while(matched)` loop of `parse_request`: read a line, drop its
last character, match it as a header line, store the header when it matches
and stop when it does not. `line` is the variable reused by every `getline`. -/
def read_headers : Nat → IStream → Str → UMap Str → Except Fault (UMap Str × IStream)
  | 0, _, _, _ => .error .out_of_fuel
  | fuel + 1, stream, line, header =>
    match pop_back (getline stream line).2 with
    | .error e => .error e
    | .ok line2 =>
      match regex_match_header_line line2 with
      | some (k, v) => read_headers fuel (getline stream line).1 line2 (UMap.assign header k v)
      | none => .ok (header, (getline stream line).1)

/-- The function `parse_request(stream)`, with the stream state it leaves. -/
def parse_request (stream : IStream) : Except Fault (Request × IStream) :=
  match pop_back (getline stream []).2 with
  | .error e => .error e
  | .ok line =>
    match regex_match_request_line line with
    | some (m, p, v) =>
      match read_headers (2 * stream.buf.length + 3) (getline stream []).1 line [] with
      | .error e => .error e
      | .ok (header, stream2) =>
        .ok ({ method := m, path := p, http_version := v, header := header }, stream2)
    | none => .ok ({}, (getline stream []).1)

/-- A fresh `std::istream` over a buffer holding `bytes`. -/
def istream (bytes : Str) : IStream := { buf := bytes, good := true }

deriving instance DecidableEq for Except

/-! ## Numeric conversions of the standard library -/

/-- The classification `isspace` of the C locale. -/
def isspace (c : Char) : Bool :=
  c = ' ' || c = '\t' || c = '\n' || c = '\x0b' || c = '\x0c' || c = '\r'

/-- An optional sign: whether it is a minus, and the text after it. -/
def strip_sign : Str → Bool × Str
  | [] => (false, [])
  | c :: cs => if c = '-' then (true, cs) else if c = '+' then (false, cs) else (false, c :: cs)

/-- Value of a hexadecimal (or decimal) digit. -/
def digit_value (c : Char) : Nat :=
  if c.isDigit then c.toNat - 48
  else if 97 ≤ c.toNat ∧ c.toNat ≤ 102 then c.toNat - 87
  else c.toNat - 55

/-- Value of a digit string in the given base. -/
def digits_value (base : Nat) (ds : Str) : Nat :=
  ds.foldl (fun acc c => base * acc + digit_value c) 0

/-- The subtraction of two `size_t` / `unsigned long long` values (64 bits). -/
def size_t_sub (a b : Nat) : Nat := (a + 2 ^ 64 - b) % 2 ^ 64

/-- The call `stoull(s)`: `strtoull` in base 10. Leading white space and a
sign are skipped, the longest run of digits is converted and the rest of the
string is ignored; no digit throws `invalid_argument`, a magnitude above
`ULLONG_MAX` throws `out_of_range`, and a minus sign negates modulo `2^64`. -/
def stoull (s : Str) : Except Fault Nat :=
  let t := strip_sign (s.dropWhile isspace)
  let ds := t.2.takeWhile Char.isDigit
  if ds = [] then .error (.throws .invalid_argument)
  else if 2 ^ 64 ≤ digits_value 10 ds then .error (.throws .out_of_range)
  else .ok (if t.1 then size_t_sub 0 (digits_value 10 ds) else digits_value 10 ds)

/-- A value of type `float`: `mantissa * 2 ^ exponent` with a sign, an
infinity, or a NaN. -/
inductive FloatVal
  | finite (negative : Bool) (mantissa : Nat) (exponent : Int)
  | infinity (negative : Bool)
  | nan
  deriving DecidableEq, Repr

/-- Number of binary digits of `n` (`fuel` bounds the recursion). -/
def bit_length_aux : Nat → Nat → Nat
  | 0, _ => 0
  | fuel + 1, n => if n = 0 then 0 else bit_length_aux fuel (n / 2) + 1

/-- Number of binary digits of `n`. -/
def bit_length (n : Nat) : Nat := bit_length_aux n n

/-- The integer `e` with `2^e ≤ n/d < 2^(e+1)`, for `n, d > 0`. -/
def floor_log2 (n d : Nat) : Int :=
  if d ≤ n then (bit_length (n / d) : Int) - 1 else -(bit_length ((d - 1) / n) : Int)

/-- The exponent `q` of the grid `2^q` on which `n/d` is rounded: 23 below the
exponent of the value, and never below that of the subnormal numbers. -/
def rounding_exponent (n d : Nat) : Int := max (floor_log2 n d) (-126) - 23

/-- The numerator of `(n/d) / 2^q`. -/
def scale_num (n : Nat) (q : Int) : Nat := if 0 ≤ q then n else n * 2 ^ (-q).toNat

/-- The denominator of `(n/d) / 2^q`. -/
def scale_den (d : Nat) (q : Int) : Nat := if 0 ≤ q then d * 2 ^ q.toNat else d

/-- The integer nearest to `N/D`, the even one of two that are equally near. -/
def round_half_even (N D : Nat) : Nat :=
  if D < 2 * (N % D) ∨ (2 * (N % D) = D ∧ (N / D) % 2 = 1) then N / D + 1 else N / D

/-- Whether `n/d` counts as tiny: it is below `2^(-126)` and rounding it to 24
binary digits does not bring it up to `2^(-126)`. Tininess is decided after
rounding, as `strtof` of glibc does on x86-64; so `1.17549435e-38`, which
rounds to the smallest normal `float`, is not tiny. -/
def is_tiny (n d : Nat) : Bool :=
  decide (floor_log2 n d < -126) &&
    !(decide (floor_log2 n d = -127) && decide (round_half_even (n * 2 ^ 150) d = 2 ^ 24))

/-- Round the positive rational `n/d` to the nearest `float` (binary32, ties to
even). The result is `(k, q)` for the value `k * 2^q`. `ERANGE`, which `stof`
turns into `out_of_range`, is reported when the rounded value is `2^128` or
more, and when the value is tiny and the result is not exact. -/
def round_binary32 (n d : Nat) : Except Fault (Nat × Int) :=
  if n = 0 then .ok (0, 0)
  else if 0 ≤ rounding_exponent n d ∧
      2 ^ 128 ≤ round_half_even (scale_num n (rounding_exponent n d))
        (scale_den d (rounding_exponent n d)) * 2 ^ (rounding_exponent n d).toNat then
    .error (.throws .out_of_range)
  else if scale_num n (rounding_exponent n d) % scale_den d (rounding_exponent n d) ≠ 0 ∧
      is_tiny n d = true then
    .error (.throws .out_of_range)
  else
    .ok (round_half_even (scale_num n (rounding_exponent n d))
      (scale_den d (rounding_exponent n d)), rounding_exponent n d)

/-- The exponent part of a floating literal: the marker (`e` or `p`, either
case), an optional sign and at least one decimal digit; `0` when there is no
well-formed exponent part. -/
def parse_exponent (marker : Char) (s : Str) : Int :=
  match s with
  | [] => 0
  | c :: cs =>
    if c.toLower = marker then
      let t := strip_sign cs
      let ds := t.2.takeWhile Char.isDigit
      if ds = [] then 0
      else if t.1 then -(digits_value 10 ds : Int) else (digits_value 10 ds : Int)
    else 0

/-- Whether `c` is a digit of the base (10 or 16). -/
def is_base_digit (base : Nat) (c : Char) : Bool :=
  if base = 16 then c.isDigit || (97 ≤ c.toLower.toNat && c.toLower.toNat ≤ 102) else c.isDigit

/-- A digit sequence with an optional radix point and exponent part, as
`(m, e)` for the value `m * eb ^ e`, where `eb` is 10 for a decimal literal
and 2 for a hexadecimal one; `none` when there is no digit. -/
def parse_mantissa (base : Nat) (marker : Char) (s : Str) : Option (Nat × Int) :=
  let ip := s.takeWhile (is_base_digit base)
  let s1 := s.dropWhile (is_base_digit base)
  let fp := match s1 with
    | [] => []
    | c :: cs => if c = '.' then cs.takeWhile (is_base_digit base) else []
  let s2 := match s1 with
    | [] => []
    | c :: cs => if c = '.' then cs.dropWhile (is_base_digit base) else c :: cs
  if ip = [] ∧ fp = [] then none
  else
    some (digits_value base (ip ++ fp),
      parse_exponent marker s2 - (if base = 16 then 4 else 1) * (fp.length : Int))

/-- The value `m * b ^ e` as a fraction, rounded to `float`. -/
def round_scaled (negative : Bool) (b m : Nat) (e : Int) : Except Fault FloatVal :=
  match round_binary32 (if 0 ≤ e then m * b ^ e.toNat else m) (if 0 ≤ e then 1 else b ^ (-e).toNat) with
  | .error f => .error f
  | .ok (k, q) => .ok (.finite negative k q)

/-- The call `stof(s)`: `strtof`. Leading white space and a sign are skipped;
then `inf`/`infinity` or `nan` (any case), a hexadecimal floating literal or a
decimal one is converted and the rest of the string is ignored. No conversion
throws `invalid_argument`; `ERANGE` throws `out_of_range`. -/
def stof (s : Str) : Except Fault FloatVal :=
  let t := strip_sign (s.dropWhile isspace)
  let lower := t.2.map Char.toLower
  if (strip_leading ['i', 'n', 'f'] lower).isSome then .ok (.infinity t.1)
  else if (strip_leading ['n', 'a', 'n'] lower).isSome then .ok .nan
  else
    match (strip_leading ['0', 'x'] lower).bind (fun _ => parse_mantissa 16 'p' (t.2.drop 2)) with
    | some (m, e) => round_scaled t.1 2 m e
    | none =>
      match parse_mantissa 10 'e' t.2 with
      | some (m, e) => round_scaled t.1 10 m e
      | none => .error (.throws .invalid_argument)

/-- The comparison `f > 1.05`: the `float` is converted to `double` exactly and
compared with the `double` nearest to 1.05, `4728779608739021 * 2^(-52)`. -/
def exceeds_1_05 : FloatVal → Bool
  | .finite negative m e =>
    !negative &&
      (if 0 ≤ e + 52 then decide (4728779608739021 < m * 2 ^ (e + 52).toNat)
       else decide (4728779608739021 * 2 ^ (-(e + 52)).toNat < m))
  | .infinity negative => !negative
  | .nan => false

/-! ## The resource tables -/

/-- What constructing `std::regex e(pattern)` and calling
`regex_match(path, sm, e)` can do: throw `regex_error`, report no match of the
whole path, or match and fill `sm` (the whole match, then the captures). -/
inductive RegexOutcome
  | regex_error
  | no_match
  | matched (sm : List Str)
  deriving DecidableEq, Repr

/-- The regular-expression library, from a pattern and a subject. -/
abbrev RegexEngine := Str → Str → RegexOutcome

/-- A `std::function<void(std::ostream &, Request &)>` that holds a target: it
produces the bytes written to the stream and may change the request. Handlers
are user code and are taken to return normally. -/
abbrev HandlerFn := Request → Str × Request

/-- A `std::function`, which may be empty (`none`). -/
abbrev Handler := Option HandlerFn

/-- The handlers of one pattern, by method. -/
abbrev MethodMap := UMap Handler

/-- The type `resource_type`, a `std::map` from pattern to handlers: its
entries in iteration order, which is ascending key order. -/
abbrev resource_type := List (Str × MethodMap)

/-- The statement `table[pattern][method] = handler` on a `std::map`: the entry
of `pattern` is found, or created at its place in key order. -/
def register : resource_type → Str → Str → Handler → resource_type
  | [], pattern, method, handler => [(pattern, [(method, handler)])]
  | (k, handlers) :: rest, pattern, method, handler =>
    if pattern < k then (pattern, [(method, handler)]) :: (k, handlers) :: rest
    else if pattern = k then (k, UMap.assign handlers method handler) :: rest
    else (k, handlers) :: register rest pattern method handler

/-- A table filled by a sequence of `table[pattern][method] = handler`
statements, starting from the empty map. -/
def build (registrations : List (Str × Str × Handler)) : resource_type :=
  registrations.foldl (fun t r => register t r.1 r.2.1 r.2.2) []

/-- The members of `ServerBase` that routing uses. An element of
`all_resources` is an iterator into one of the two maps; it is represented by
the entry it points to. -/
structure ServerBase where
  resource : resource_type := []
  default_resource : resource_type := []
  all_resources : List (Str × MethodMap) := []

/-- The two loops of `start()` that fill `all_resources`. -/
def start (server : ServerBase) : ServerBase :=
  { server with
    all_resources := (server.all_resources ++ server.resource) ++ server.default_resource }

/-! ## The connection pipeline -/

/-- Where a connection goes after a response was written. -/
inductive ConnState
  | AWAIT_HEADERS
  | CLOSE
  deriving DecidableEq, Repr

/-- What `respond` did when it returns normally: it found no entry and wrote
nothing, or it ran a handler and started `async_write` of the bytes. -/
inductive Responded
  | no_route
  | write (bytes : Str) (request : Request)
  deriving DecidableEq, Repr

/-- The body of the `if(std::regex_match(...))` block of `respond` for the entry
that matched, up to the start of `async_write`, with the entry as it leaves it:
`path_match` is assigned only when the method is a key, `handlers[method]`
inserts an empty function under a missing method, and calling an empty
function throws `bad_function_call`. -/
def invoke (entry : Str × MethodMap) (sm : List Str) (request : Request) :
    (Str × MethodMap) × Except Fault Responded :=
  match UMap.find entry.2 request.method with
  | none =>
    ((entry.1, UMap.assign entry.2 request.method none), .error (.throws .bad_function_call))
  | some none => (entry, .error (.throws .bad_function_call))
  | some (some f) =>
    (entry,
      .ok (.write
        (f (if 0 < UMap.count entry.2 request.method
            then { request with path_match := sm } else request)).1
        (f (if 0 < UMap.count entry.2 request.method
            then { request with path_match := sm } else request)).2))

/-- The function `respond(socket, request)` up to the start of `async_write`,
with the table as it leaves it. Constructing the `std::regex` of an entry may
throw; the first entry whose pattern matches the whole path ends the scan. -/
def respond (re : RegexEngine) :
    List (Str × MethodMap) → Request → List (Str × MethodMap) × Except Fault Responded
  | [], _ => ([], .ok .no_route)
  | entry :: rest, request =>
    match re entry.1 request.path with
    | .regex_error => (entry :: rest, .error (.throws .regex_error))
    | .no_match => (entry :: (respond re rest request).1, (respond re rest request).2)
    | .matched sm => ((invoke entry sm request).1 :: rest, (invoke entry sm request).2)

/-- The completion handler of `async_write` in `respond`: with `ec` set the
condition stops at `!ec`; otherwise `stof(request->http_version) > 1.05`
decides whether `process_request_and_respond(socket)` is called again. -/
def write_completed (ec : Bool) (request : Request) : Except Fault ConnState :=
  if ec then .ok .CLOSE
  else
    match stof request.http_version with
    | .error f => .error f
    | .ok v => .ok (if exceeds_1_05 v then .AWAIT_HEADERS else .CLOSE)

/-- The number of bytes up to and including the first `"\r\n\r\n"`. -/
def find_delimiter : Str → Option Nat
  | [] => none
  | c :: cs =>
    if (strip_leading ['\r', '\n', '\r', '\n'] (c :: cs)).isSome then some 4
    else (find_delimiter cs).map (· + 1)

/-- What the completion handler of `async_read_until` decides. -/
inductive AfterHeaders
  | close
  | read_body (count : Nat) (request : Request) (read_buffer : Str)
  | respond (request : Request) (read_buffer : Str)
  deriving DecidableEq, Repr

/-- The key of the body length header. -/
def content_length : Str := "Content-Length".toList

/-- The completion handler of `async_read_until` in
`process_request_and_respond`, for a buffer holding `read_buffer` of which the
first `bytes_transferred` bytes end with the delimiter: parse the request, then
either ask for `stoull(header["Content-Length"]) - num_additional_bytes` more
bytes or respond. `read_buffer` in the result is what parsing left unread. -/
def headers_read (ec : Bool) (read_buffer : Str) (bytes_transferred : Nat) :
    Except Fault AfterHeaders :=
  if ec then .ok .close
  else
    match parse_request (istream read_buffer) with
    | .error f => .error f
    | .ok (request, stream) =>
      if 0 < UMap.count request.header content_length then
        match stoull ((UMap.find request.header content_length).getD []) with
        | .error f => .error f
        | .ok n =>
          .ok (.read_body (size_t_sub n (size_t_sub read_buffer.length bytes_transferred))
            request stream.buf)
      else .ok (.respond request stream.buf)

/-- The call `async_read_until(socket, read_buffer, "\r\n\r\n")` on an empty
buffer, for a peer that sends `incoming` and then closes. The read stops with
the chunk that completes the delimiter; `extra` is the number of bytes that
chunk holds after the delimiter. Result: `ec`, the buffer, `bytes_transferred`
and the bytes still to come. -/
def async_read_until (incoming : Str) (extra : Nat) : Bool × Str × Nat × Str :=
  match find_delimiter incoming with
  | some n => (false, incoming.take (n + extra), n, incoming.drop (n + extra))
  | none => (true, incoming, 0, [])

/-- The call `async_read(socket, read_buffer, transfer_exactly(count))`: the
bytes are appended to the buffer; the peer closing early sets `ec`. Result:
`ec`, the buffer and the bytes still to come. -/
def async_read (incoming read_buffer : Str) (count : Nat) : Bool × Str × Str :=
  if count ≤ incoming.length then
    (false, read_buffer ++ incoming.take count, incoming.drop count)
  else (true, read_buffer ++ incoming, [])

/-- The part of `process_request_and_respond` before `respond` is called: the
request handed to `respond` and the bytes still to come, or `none` when a read
failed and the connection is dropped. With a `Content-Length` header the
request's `content` reads from `read_buffer` after the second read. -/
def receive_request (incoming : Str) (extra : Nat) : Except Fault (Option (Request × Str)) :=
  match headers_read (async_read_until incoming extra).1 (async_read_until incoming extra).2.1
      (async_read_until incoming extra).2.2.1 with
  | .error f => .error f
  | .ok .close => .ok none
  | .ok (.respond request _) => .ok (some (request, (async_read_until incoming extra).2.2.2))
  | .ok (.read_body count request read_buffer) =>
    if (async_read (async_read_until incoming extra).2.2.2 read_buffer count).1 then .ok none
    else
      .ok (some ({ request with
          content := some (async_read (async_read_until incoming extra).2.2.2 read_buffer count).2.1 },
        (async_read (async_read_until incoming extra).2.2.2 read_buffer count).2.2))

/-- How one call of `process_request_and_respond` ends: the response bytes
written (if any), the next state of the connection and the bytes still to
come on the socket. -/
structure Cycle where
  written : Option Str
  next : ConnState
  incoming : Str
  deriving DecidableEq, Repr

/-- One call of `process_request_and_respond(socket)` with its completion
handlers, for a peer that sends `incoming`; `extra` is as in
`async_read_until` and `write_ec` tells whether `async_write` fails. -/
def process_request_and_respond (re : RegexEngine) (all_resources : List (Str × MethodMap))
    (incoming : Str) (extra : Nat) (write_ec : Bool) :
    List (Str × MethodMap) × Except Fault Cycle :=
  match receive_request incoming extra with
  | .error f => (all_resources, .error f)
  | .ok none => (all_resources, .ok { written := none, next := .CLOSE, incoming := [] })
  | .ok (some (request, rest)) =>
    match respond re all_resources request with
    | (table, .error f) => (table, .error f)
    | (table, .ok .no_route) => (table, .ok { written := none, next := .CLOSE, incoming := rest })
    | (table, .ok (.write bytes request2)) =>
      match write_completed write_ec request2 with
      | .error f => (table, .error f)
      | .ok next => (table, .ok { written := some bytes, next := next, incoming := rest })

/-- A regular-expression library restricted to patterns without
metacharacters, for which `regex_match` is equality of pattern and subject. -/
def literal_regex : RegexEngine :=
  fun pattern subject => if pattern = subject then .matched [subject] else .no_match

/-- A handler that answers with a fixed body. -/
def fixed_handler (bytes : Str) : HandlerFn := fun request => (bytes, request)

/-- The table of a started server with one explicit entry: `pattern`, with a
handler that answers `ok` under `method`. -/
def single_route (pattern method : Str) : List (Str × MethodMap) :=
  (start { resource := build [(pattern, method, some (fixed_handler ['o', 'k']))] }).all_resources

/-! ## Well-formed request headers -/

/-- The header block made of the lines `ls`, each ended by `"\r\n"`, and the
blank line that closes it. -/
def header_block : List Str → Str
  | [] => ['\r', '\n']
  | l :: ls => l ++ '\r' :: '\n' :: header_block ls

/-- The bytes of a request head: the request line and the header block. -/
def request_bytes (request_line : Str) (ls : List Str) : Str :=
  request_line ++ '\r' :: '\n' :: header_block ls

/-- The header map after the lines `ls` were stored one after the other. -/
def insert_headers : UMap Str → List Str → UMap Str
  | h, [] => h
  | h, l :: ls =>
    match regex_match_header_line l with
    | some (k, v) => insert_headers (UMap.assign h k v) ls
    | none => insert_headers h ls

/-- The value of the last of the lines `ls` whose header name is `name`. -/
def last_value (ls : List Str) (name : Str) : Option Str :=
  ((ls.reverse.filterMap regex_match_header_line).find? (fun kv => kv.1 = name)).map Prod.snd

/-- The number written by the decimal digits `ds`, most significant first. -/
def decimal_number (ds : Str) : Nat :=
  Nat.ofDigits 10 (ds.reverse.map (fun c => c.toNat - 48))

/-! ## Lines and the two patterns -/

theorem read_line_append (l rest : Str) (h : '\n' ∉ l) :
    read_line (l ++ '\n' :: rest) = (l, some rest) := by
  induction l with
  | nil => simp [read_line]
  | cons c cs ih =>
    have hc : c ≠ '\n' := fun e => h (by simp [e])
    have hcs : '\n' ∉ cs := fun e => h (by simp [e])
    simp [read_line, hc, ih hcs]

theorem read_line_crlf (l rest : Str) (h : '\n' ∉ l) :
    read_line (l ++ '\r' :: '\n' :: rest) = (l ++ ['\r'], some rest) := by
  have h2 : '\n' ∉ l ++ ['\r'] := by
    simp only [List.mem_append, List.mem_singleton, not_or]
    exact ⟨h, by decide⟩
  have := read_line_append (l ++ ['\r']) rest h2
  simpa using this

theorem getline_crlf (l rest line : Str) (h : '\n' ∉ l) :
    getline { buf := l ++ '\r' :: '\n' :: rest, good := true } line
      = ({ buf := rest, good := true }, l ++ ['\r']) := by
  simp [getline, read_line_crlf l rest h]

theorem pop_back_cr (l : Str) : pop_back (l ++ ['\r']) = .ok l := by
  cases l with
  | nil => rfl
  | cons c cs =>
    show Except.ok ((c :: cs ++ ['\r']).dropLast) = _
    rw [List.dropLast_concat]

theorem takeWhile_ne (c : Char) (l rest : Str) (h : c ∉ l) :
    (l ++ c :: rest).takeWhile (· ≠ c) = l := by
  induction l with
  | nil => simp
  | cons d ds ih =>
    have hd : d ≠ c := fun e => h (by simp [e])
    have hds : c ∉ ds := fun e => h (by simp [e])
    simpa [List.takeWhile_cons, hd] using ih hds

theorem dropWhile_ne (c : Char) (l rest : Str) (h : c ∉ l) :
    (l ++ c :: rest).dropWhile (· ≠ c) = c :: rest := by
  induction l with
  | nil => simp
  | cons d ds ih =>
    have hd : d ≠ c := fun e => h (by simp [e])
    have hds : c ∉ ds := fun e => h (by simp [e])
    simpa [List.dropWhile_cons, hd] using ih hds

theorem dropWhile_ne_nil (c : Char) (l : Str) (h : c ∉ l) :
    l.dropWhile (· ≠ c) = [] := by
  rw [List.dropWhile_eq_nil_iff]
  intro x hx
  have : x ≠ c := fun e => h (e ▸ hx)
  simpa using this

/-- The request-line pattern on a line of the form `M P HTTP/V`. -/
theorem regex_match_request_line_triple (M P V : Str)
    (hM : ' ' ∉ M) (hP : ' ' ∉ P) (hV : ' ' ∉ V) :
    regex_match_request_line (M ++ ' ' :: (P ++ ' ' :: 'H' :: 'T' :: 'T' :: 'P' :: '/' :: V))
      = some (M, P, V) := by
  have hall : V.all (fun c => decide (c ≠ ' ')) = true := by
    rw [List.all_eq_true]
    intro c hc
    have : c ≠ ' ' := fun e => hV (e ▸ hc)
    simpa using this
  unfold regex_match_request_line
  rw [dropWhile_ne ' ' M _ hM, takeWhile_ne ' ' M _ hM]
  simp only [strip_leading, if_true]
  rw [dropWhile_ne ' ' P _ hP, takeWhile_ne ' ' P _ hP]
  simp only [strip_leading, if_true]
  rw [if_pos hall]

/-! ## `parse_request` on a well-formed head -/

theorem header_block_length (ls : List Str) : ls.length < (header_block ls).length := by
  induction ls with
  | nil => simp [header_block]
  | cons l ls ih => simp [header_block]; omega

/-- The header loop on a block of matching lines followed by the blank line:
every line is stored, the blank line ends the loop and what follows it is left
in the stream. -/
theorem read_headers_block (ls : List Str)
    (hls : ∀ l ∈ ls, '\n' ∉ l ∧ (regex_match_header_line l).isSome = true) :
    ∀ (fuel : Nat) (line : Str) (h : UMap Str) (rest : Str), ls.length < fuel →
      read_headers fuel { buf := header_block ls ++ rest, good := true } line h
        = .ok (insert_headers h ls, { buf := rest, good := true }) := by
  induction ls with
  | nil =>
    intro fuel line h rest hf
    obtain ⟨f, rfl⟩ : ∃ f, fuel = f + 1 := ⟨fuel - 1, by simp at hf; omega⟩
    have hg := getline_crlf [] rest line (by simp)
    simp only [List.nil_append] at hg
    simp only [read_headers, header_block, List.cons_append, List.nil_append, hg]
    rfl
  | cons l ls ih =>
    intro fuel line h rest hf
    obtain ⟨f, rfl⟩ : ∃ f, fuel = f + 1 := ⟨fuel - 1, by simp at hf; omega⟩
    have hl := hls l (by simp)
    have hg := getline_crlf l (header_block ls ++ rest) line hl.1
    obtain ⟨kv, hkv⟩ := Option.isSome_iff_exists.mp hl.2
    have hf2 : ls.length < f := by simp at hf; omega
    have ih2 := ih (fun x hx => hls x (by simp [hx])) f l (UMap.assign h kv.1 kv.2) rest hf2
    simp only [read_headers, header_block, List.cons_append, List.append_assoc, hg,
      pop_back_cr, hkv, insert_headers]
    exact ih2

/-- The function `parse_request` on a matching request line, matching header
lines and the blank line, all ended by `"\r\n"`: it returns the three fields of
the request line and the stored headers, and leaves what follows the blank
line unread. -/
theorem parse_request_well_formed (rl m p v : Str) (ls : List Str) (rest : Str)
    (hrl : '\n' ∉ rl) (hm : regex_match_request_line rl = some (m, p, v))
    (hls : ∀ l ∈ ls, '\n' ∉ l ∧ (regex_match_header_line l).isSome = true) :
    parse_request (istream (request_bytes rl ls ++ rest))
      = .ok ({ method := m, path := p, http_version := v, header := insert_headers [] ls },
             istream rest) := by
  have hg := getline_crlf rl (header_block ls ++ rest) [] hrl
  have hlen : ls.length < 2 * (request_bytes rl ls ++ rest).length + 3 := by
    have := header_block_length ls
    simp only [request_bytes, List.length_append, List.length_cons]
    omega
  have hh := read_headers_block ls hls (2 * (request_bytes rl ls ++ rest).length + 3) rl [] rest hlen
  unfold parse_request
  have e1 : (istream (request_bytes rl ls ++ rest)).buf = request_bytes rl ls ++ rest := rfl
  have e2 : getline (istream (request_bytes rl ls ++ rest)) []
      = ({ buf := header_block ls ++ rest, good := true }, rl ++ ['\r']) := by
    simpa [istream, request_bytes] using hg
  rw [e1, e2]
  simp only [pop_back_cr, hm, hh]
  rfl

/-! ## The header map -/

theorem UMap.find_assign {V : Type} (m : UMap V) (k k' : Str) (v : V) :
    UMap.find (UMap.assign m k v) k' = if k = k' then some v else UMap.find m k' := by
  induction m with
  | nil => simp [UMap.assign, UMap.find]
  | cons e es ih =>
    obtain ⟨k0, v0⟩ := e
    by_cases h0 : k0 = k
    · subst h0
      by_cases h1 : k0 = k' <;> simp [UMap.assign, UMap.find, h1]
    · by_cases h1 : k0 = k'
      · have h2 : ¬ k = k' := fun e => h0 (h1.trans e.symm)
        subst h1
        simp [UMap.assign, UMap.find, h0, h2]
      · simp [UMap.assign, UMap.find, h0, h1, ih]

theorem last_value_cons (l : Str) (ls : List Str) (name : Str) :
    last_value (l :: ls) name
      = (last_value ls name).or
          (match regex_match_header_line l with
           | some (k, v) => if k = name then some v else none
           | none => none) := by
  unfold last_value
  rw [List.reverse_cons, List.filterMap_append, List.find?_append]
  cases hl : regex_match_header_line l with
  | none => simp [hl]
  | some kv =>
    obtain ⟨k, v⟩ := kv
    by_cases hk : k = name
    · cases hx : List.find? (fun kv => decide (kv.1 = name))
          (List.filterMap regex_match_header_line ls.reverse) <;>
        simp [hl, hk, hx, List.find?]
    · cases hx : List.find? (fun kv => decide (kv.1 = name))
          (List.filterMap regex_match_header_line ls.reverse) <;>
        simp [hl, hk, hx, List.find?]

/-- Looking a name up after storing the lines `ls`: the value of the last line
with that name, and without such a line what was there before. -/
theorem find_insert_headers (ls : List Str) :
    ∀ (h : UMap Str) (name : Str),
      UMap.find (insert_headers h ls) name = (last_value ls name).or (UMap.find h name) := by
  induction ls with
  | nil => intro h name; simp [insert_headers, last_value]
  | cons l ls ih =>
    intro h name
    rw [last_value_cons]
    cases hl : regex_match_header_line l with
    | none =>
      simp only [insert_headers, hl, ih]
      cases last_value ls name <;> simp
    | some kv =>
      obtain ⟨k, v⟩ := kv
      simp only [insert_headers, hl, ih, UMap.find_assign]
      cases last_value ls name <;> by_cases hk : k = name <;> simp [hk]

/-! ## The header loop always ends -/

theorem read_line_none (buf : Str) : (read_line buf).2 = none → (read_line buf).1 = buf := by
  induction buf with
  | nil => intro _; rfl
  | cons c cs ih =>
    by_cases hc : c = '\n'
    · simp [read_line, hc]
    · simp only [read_line, hc, if_false]
      intro h
      rw [ih h]

theorem read_line_some (buf rest : Str) :
    (read_line buf).2 = some rest → (read_line buf).1.length + rest.length + 1 = buf.length := by
  induction buf with
  | nil => simp [read_line]
  | cons c cs ih =>
    by_cases hc : c = '\n'
    · simp only [read_line, hc, if_true, Option.some.injEq, List.length_nil, List.length_cons]
      intro h
      rw [h]
      omega
    · simp only [read_line, hc, if_false, List.length_cons]
      intro h
      have := ih h
      omega

theorem pop_back_ok (line line2 : Str) (h : pop_back line = .ok line2) :
    line2.length + 1 = line.length := by
  cases line with
  | nil => simp [pop_back] at h
  | cons c cs =>
    simp only [pop_back, Except.ok.injEq] at h
    rw [← h, List.length_dropLast]
    simp

theorem pop_back_error (line : Str) (f : Fault) (h : pop_back line = .error f) :
    f = .undefined_behaviour := by
  cases line with
  | nil => simp only [pop_back, Except.error.injEq] at h; exact h.symm
  | cons c cs => simp [pop_back] at h

/-- With fuel above the bound the header loop never stops for lack of fuel:
a good stream loses at least one byte per round, and on a stream that is no
longer good the line loses one character per round. -/
theorem read_headers_fuel :
    ∀ (fuel : Nat) (stream : IStream) (line : Str) (h : UMap Str),
      (if stream.good then 2 * stream.buf.length + 2 else line.length + 1) ≤ fuel →
      read_headers fuel stream line h ≠ .error .out_of_fuel := by
  intro fuel
  induction fuel with
  | zero =>
    intro stream line h hb
    split at hb <;> omega
  | succ f ih =>
    intro stream line h hb
    unfold read_headers
    cases hp : pop_back (getline stream line).2 with
    | error e =>
      have := pop_back_error _ e hp
      simp [this]
    | ok line2 =>
      have hlen := pop_back_ok _ _ hp
      cases hm : regex_match_header_line line2 with
      | none => simp [hm]
      | some kv =>
        simp only [hm]
        apply ih
        obtain ⟨buf, good⟩ := stream
        cases good with
        | false =>
          simp only [getline] at hlen ⊢
          simp only [Bool.false_eq_true, if_false] at hlen hb ⊢
          omega
        | true =>
          simp only [getline, if_true] at hlen hb ⊢
          cases hr : read_line buf with
          | mk l o =>
            cases o with
            | none =>
              have h1 := read_line_none buf (by rw [hr])
              rw [hr] at h1 hlen
              simp only at h1 hlen ⊢
              simp only [Bool.false_eq_true, if_false]
              rw [h1] at hlen
              omega
            | some rest =>
              have h1 := read_line_some buf rest (by rw [hr])
              rw [hr] at h1
              simp only at h1 ⊢
              simp only [if_true]
              omega

/-- The function `parse_request` never stops for lack of fuel. -/
theorem parse_request_fuel (stream : IStream) :
    parse_request stream ≠ .error .out_of_fuel := by
  unfold parse_request
  cases hp : pop_back (getline stream []).2 with
  | error e =>
    have := pop_back_error _ e hp
    simp [this]
  | ok line =>
    have hlen := pop_back_ok _ _ hp
    cases hm : regex_match_request_line line with
    | none => simp [hm]
    | some mpv =>
      obtain ⟨m, p, v⟩ := mpv
      simp only [hm]
      have hf : read_headers (2 * stream.buf.length + 3) (getline stream []).1 line []
          ≠ .error .out_of_fuel := by
        apply read_headers_fuel
        obtain ⟨buf, good⟩ := stream
        cases good with
        | false => simp [getline] at hlen
        | true =>
          simp only [getline, if_true] at hlen ⊢
          cases hr : read_line buf with
          | mk l o =>
            cases o with
            | none =>
              have h1 := read_line_none buf (by rw [hr])
              rw [hr] at h1 hlen
              simp only at h1 hlen ⊢
              simp only [Bool.false_eq_true, if_false]
              rw [h1] at hlen
              omega
            | some rest =>
              have h1 := read_line_some buf rest (by rw [hr])
              rw [hr] at h1
              simp only at h1 ⊢
              simp only [if_true]
              omega
      cases hh : read_headers (2 * stream.buf.length + 3) (getline stream []).1 line [] with
      | error e =>
        simp only [hh, ne_eq, Except.error.injEq]
        intro he
        exact hf (by rw [hh, he])
      | ok r => simp [hh]

/-! ## The delimiter of a well-formed head -/

theorem find_delimiter_line (l t : Str) (h : '\n' ∉ l) :
    find_delimiter (l ++ '\r' :: '\n' :: t)
      = (find_delimiter ('\r' :: '\n' :: t)).map (· + l.length) := by
  induction l with
  | nil => simp
  | cons c cs ih =>
    have hcs : '\n' ∉ cs := fun e => h (by simp [e])
    have hno : (strip_leading ['\r', '\n', '\r', '\n'] (c :: (cs ++ '\r' :: '\n' :: t))).isSome
        = false := by
      cases cs with
      | nil => by_cases hc : '\r' = c <;> simp [strip_leading, hc]
      | cons d ds =>
        have hd : ¬ '\n' = d := fun e => h (by simp [← e])
        by_cases hc : '\r' = c <;> simp [strip_leading, hc, hd]
    rw [List.cons_append, find_delimiter, hno, ih hcs]
    simp only [Bool.false_eq_true, if_false, Option.map_map, List.length_cons]
    congr 1

theorem find_delimiter_skip (c : Char) (cs t : Str) (h : '\n' ∉ c :: cs) :
    find_delimiter ('\r' :: '\n' :: (c :: cs ++ '\r' :: '\n' :: t))
      = (find_delimiter (c :: cs ++ '\r' :: '\n' :: t)).map (· + 2) := by
  have hno : (strip_leading ['\r', '\n', '\r', '\n']
      ('\r' :: '\n' :: (c :: cs ++ '\r' :: '\n' :: t))).isSome = false := by
    cases cs with
    | nil => by_cases hc : '\r' = c <;> simp [strip_leading, hc]
    | cons d ds =>
      have hd : ¬ '\n' = d := fun e => h (by simp [← e])
      by_cases hc : '\r' = c <;> simp [strip_leading, hc, hd]
  have hno2 : (strip_leading ['\r', '\n', '\r', '\n']
      ('\n' :: (c :: cs ++ '\r' :: '\n' :: t))).isSome = false := by
    simp [strip_leading]
  rw [find_delimiter, hno, find_delimiter, hno2]
  simp only [Bool.false_eq_true, if_false, Option.map_map]
  congr 1

theorem regex_match_header_line_nil : regex_match_header_line [] = none := rfl

theorem find_delimiter_block (ls : List Str) (body : Str)
    (hls : ∀ l ∈ ls, '\n' ∉ l ∧ (regex_match_header_line l).isSome = true) :
    find_delimiter ('\r' :: '\n' :: (header_block ls ++ body))
      = some (2 + (header_block ls).length) := by
  induction ls with
  | nil => simp [header_block, find_delimiter, strip_leading]
  | cons l ls ih =>
    have hl := hls l (by simp)
    have ih2 := ih (fun x hx => hls x (by simp [hx]))
    cases l with
    | nil => simp [regex_match_header_line_nil] at hl
    | cons c cs =>
      have e : header_block ((c :: cs) :: ls) ++ body
          = c :: cs ++ '\r' :: '\n' :: (header_block ls ++ body) := by
        simp [header_block]
      rw [e, find_delimiter_skip c cs _ hl.1, find_delimiter_line (c :: cs) _ hl.1, ih2]
      simp only [Option.map_some', header_block, List.length_append, List.length_cons]
      congr 1
      omega

/-- In a well-formed head the first `"\r\n\r\n"` is the one that closes it. -/
theorem find_delimiter_request (rl : Str) (ls : List Str) (body : Str)
    (hrl : '\n' ∉ rl)
    (hls : ∀ l ∈ ls, '\n' ∉ l ∧ (regex_match_header_line l).isSome = true) :
    find_delimiter (request_bytes rl ls ++ body) = some (request_bytes rl ls).length := by
  have e : request_bytes rl ls ++ body = rl ++ '\r' :: '\n' :: (header_block ls ++ body) := by
    simp [request_bytes]
  rw [e, find_delimiter_line rl _ hrl, find_delimiter_block ls body hls]
  simp only [Option.map_some', request_bytes, List.length_append, List.length_cons]
  congr 1
  omega

/-! ## Length arithmetic -/

theorem size_t_sub_le (a b : Nat) (h : b ≤ a) (ha : a < 2 ^ 64) : size_t_sub a b = a - b := by
  unfold size_t_sub
  omega

theorem size_t_sub_gt (a b : Nat) (h : a < b) (hb : b < 2 ^ 64) :
    size_t_sub a b = a + 2 ^ 64 - b := by
  unfold size_t_sub
  omega

theorem size_t_sub_add (a k : Nat) (hk : k < 2 ^ 64) : size_t_sub (a + k) a = k := by
  unfold size_t_sub
  omega

theorem stoull_lt (s : Str) (n : Nat) (h : stoull s = .ok n) : n < 2 ^ 64 := by
  unfold stoull at h
  simp only at h
  split at h
  · simp at h
  · split at h
    · simp at h
    · rename_i h1 h2
      simp only [Except.ok.injEq] at h
      split at h
      · rw [← h]
        unfold size_t_sub
        omega
      · rw [← h]
        omega

/-! ## Header storage and body assembly -/

theorem UMap.keys_assign {V : Type} (m : UMap V) (k : Str) (v : V) :
    List.map Prod.fst (UMap.assign m k v)
      = if k ∈ List.map Prod.fst m then List.map Prod.fst m else List.map Prod.fst m ++ [k] := by
  induction m with
  | nil => simp [UMap.assign]
  | cons e es ih =>
    obtain ⟨k0, v0⟩ := e
    by_cases h0 : k0 = k
    · subst h0
      simp only [UMap.assign, if_true, List.map_cons, List.mem_cons, true_or]
    · have h1 : ¬ k = k0 := fun e => h0 e.symm
      simp only [UMap.assign, h0, if_false, List.map_cons, ih, List.mem_cons, h1, false_or]
      split
      · rfl
      · rfl

theorem UMap.nodup_assign {V : Type} (m : UMap V) (k : Str) (v : V)
    (h : (List.map Prod.fst m).Nodup) : (List.map Prod.fst (UMap.assign m k v)).Nodup := by
  rw [UMap.keys_assign]
  split
  · exact h
  · rename_i hk
    exact List.Nodup.append h (List.nodup_singleton k) (List.disjoint_singleton.mpr hk)

theorem nodup_insert_headers (ls : List Str) :
    ∀ h : UMap Str, (List.map Prod.fst h).Nodup → (List.map Prod.fst (insert_headers h ls)).Nodup := by
  induction ls with
  | nil => intro h hh; exact hh
  | cons l ls ih =>
    intro h hh
    cases hl : regex_match_header_line l with
    | none => simpa [insert_headers, hl] using ih h hh
    | some kv => simpa [insert_headers, hl] using ih _ (UMap.nodup_assign h kv.1 kv.2 hh)

/-- C4. For a matching request line followed by header lines that each match
the header pattern, every line ended by `"\r\n"`, and then the blank line,
`parse_request` returns a header map with distinct keys in which every name
maps to the value of the last line carrying that name and no other name is
present; what follows the blank line stays unread in the stream and has no
influence on the map. -/
theorem parse_request_headers_last_wins (rl m p v : Str) (ls : List Str) (rest : Str)
    (hrl : '\n' ∉ rl) (hm : regex_match_request_line rl = some (m, p, v))
    (hls : ∀ l ∈ ls, '\n' ∉ l ∧ (regex_match_header_line l).isSome = true) :
    ∃ request : Request,
      parse_request (istream (request_bytes rl ls ++ rest)) = .ok (request, istream rest) ∧
      request.header = insert_headers [] ls ∧
      (List.map Prod.fst request.header).Nodup ∧
      (∀ name, UMap.find request.header name = last_value ls name) ∧
      (∀ name, name ∈ List.map Prod.fst request.header ↔
        ∃ l ∈ ls, ∃ value, regex_match_header_line l = some (name, value)) := by
  refine ⟨{ method := m, path := p, http_version := v, header := insert_headers [] ls },
    parse_request_well_formed rl m p v ls rest hrl hm hls, rfl,
    nodup_insert_headers ls [] (by simp), ?_, ?_⟩
  · intro name
    show UMap.find (insert_headers [] ls) name = last_value ls name
    rw [find_insert_headers]
    cases last_value ls name <;> simp [UMap.find]
  · intro name
    show name ∈ List.map Prod.fst (insert_headers [] ls) ↔ _
    have key : ∀ (h : UMap Str), name ∈ List.map Prod.fst h ↔ (UMap.find h name).isSome = true := by
      intro h
      induction h with
      | nil => simp [UMap.find]
      | cons e es ih =>
        obtain ⟨k0, v0⟩ := e
        by_cases h0 : k0 = name
        · simp [UMap.find, h0]
        · have h1 : ¬ name = k0 := fun e => h0 e.symm
          simp [UMap.find, h0, h1, ih]
    rw [key, find_insert_headers]
    simp only [UMap.find, Option.or_none]
    unfold last_value
    rw [Option.isSome_map', List.find?_isSome]
    constructor
    · rintro ⟨kv, hkv, hname⟩
      rw [List.mem_filterMap] at hkv
      obtain ⟨l, hl, hlkv⟩ := hkv
      refine ⟨l, List.mem_reverse.mp hl, kv.2, ?_⟩
      have : kv.1 = name := by simpa using hname
      rw [hlkv, ← this]
    · rintro ⟨l, hl, value, hlv⟩
      exact ⟨(name, value), List.mem_filterMap.mpr ⟨l, List.mem_reverse.mpr hl, hlv⟩, by simp⟩

/-- C4 at a request with a repeated header name: the later value is kept. -/
theorem parse_request_headers_last_wins_witness :
    ∃ request : Request,
      parse_request (istream (request_bytes "GET / HTTP/1.1".toList
          ["A: 1".toList, "B: 2".toList, "A: 3".toList] ++ "body".toList))
        = .ok (request, istream "body".toList) ∧
      request.header = insert_headers [] ["A: 1".toList, "B: 2".toList, "A: 3".toList] ∧
      (List.map Prod.fst request.header).Nodup ∧
      (∀ name, UMap.find request.header name
        = last_value ["A: 1".toList, "B: 2".toList, "A: 3".toList] name) ∧
      (∀ name, name ∈ List.map Prod.fst request.header ↔
        ∃ l ∈ ["A: 1".toList, "B: 2".toList, "A: 3".toList], ∃ value,
          regex_match_header_line l = some (name, value)) :=
  parse_request_headers_last_wins "GET / HTTP/1.1".toList "GET".toList "/".toList "1.1".toList
    ["A: 1".toList, "B: 2".toList, "A: 3".toList] "body".toList
    (by decide) (by decide) (by decide)

/-- C6. For a well-formed head (a matching request line, matching header lines
and the blank line, all ended by `"\r\n"`) whose last `Content-Length` line
carries a value that `stoull` reads as `n`, followed by a body of `n` bytes of
which `k ≤ n` arrive with the head: the delimiter found is the end of the head,
`parse_request` leaves exactly the `k` body bytes in the buffer, `n - k` bytes
are requested, the buffer then holds the whole body, and the request handed to
`respond` has the body as its content. -/
theorem body_assembled (rl m p v : Str) (ls : List Str) (cl : Str) (n k : Nat) (body : Str)
    (hrl : '\n' ∉ rl) (hm : regex_match_request_line rl = some (m, p, v))
    (hls : ∀ l ∈ ls, '\n' ∉ l ∧ (regex_match_header_line l).isSome = true)
    (hcl : last_value ls content_length = some cl) (hn : stoull cl = .ok n)
    (hbody : body.length = n) (hk : k ≤ n) :
    async_read_until (request_bytes rl ls ++ body) k
      = (false, request_bytes rl ls ++ body.take k, (request_bytes rl ls).length, body.drop k) ∧
    parse_request (istream (request_bytes rl ls ++ body.take k))
      = .ok ({ method := m, path := p, http_version := v, header := insert_headers [] ls },
             istream (body.take k)) ∧
    headers_read false (request_bytes rl ls ++ body.take k) (request_bytes rl ls).length
      = .ok (.read_body (n - k)
          { method := m, path := p, http_version := v, header := insert_headers [] ls }
          (body.take k)) ∧
    async_read (body.drop k) (body.take k) (n - k) = (false, body, []) ∧
    receive_request (request_bytes rl ls ++ body) k
      = .ok (some ({ method := m, path := p, http_version := v,
                     header := insert_headers [] ls, content := some body }, [])) := by
  have hn64 := stoull_lt cl n hn
  have h1 : async_read_until (request_bytes rl ls ++ body) k
      = (false, request_bytes rl ls ++ body.take k, (request_bytes rl ls).length,
          body.drop k) := by
    simp only [async_read_until, find_delimiter_request rl ls body hrl hls,
      List.take_append, List.drop_append]
  have h2 := parse_request_well_formed rl m p v ls (body.take k) hrl hm hls
  have hfind : UMap.find (insert_headers [] ls) content_length = some cl := by
    rw [find_insert_headers, hcl]
    rfl
  have htake : (body.take k).length = k := by
    rw [List.length_take]
    omega
  have h3 : headers_read false (request_bytes rl ls ++ body.take k) (request_bytes rl ls).length
      = .ok (.read_body (n - k)
          { method := m, path := p, http_version := v, header := insert_headers [] ls }
          (body.take k)) := by
    simp only [headers_read, Bool.false_eq_true, if_false, h2, UMap.count, hfind,
      Option.isSome_some, if_true, Nat.lt_irrefl, Nat.zero_lt_one, Option.getD_some, hn,
      List.length_append, htake]
    rw [size_t_sub_add _ k (by omega), size_t_sub_le n k hk hn64]
    rfl
  have h4 : async_read (body.drop k) (body.take k) (n - k) = (false, body, []) := by
    have hd : (body.drop k).length = n - k := by
      rw [List.length_drop, hbody]
    have e1 : List.take (n - k) (body.drop k) = body.drop k :=
      List.take_of_length_le (by omega)
    have e2 : List.drop (n - k) (body.drop k) = [] := List.drop_of_length_le (by omega)
    simp only [async_read, hd, le_refl, if_true]
    rw [e1, e2, List.take_append_drop]
  refine ⟨h1, h2, h3, h4, ?_⟩
  simp only [receive_request, h1, h3, h4]
  rfl

/-- C6 at a body of five bytes of which two arrive with the head. -/
theorem body_assembled_witness :
    async_read_until (request_bytes "POST /a HTTP/1.1".toList ["Content-Length: 5".toList]
        ++ "hello".toList) 2
      = (false, request_bytes "POST /a HTTP/1.1".toList ["Content-Length: 5".toList]
          ++ "hello".toList.take 2,
        (request_bytes "POST /a HTTP/1.1".toList ["Content-Length: 5".toList]).length,
        "hello".toList.drop 2) ∧
    parse_request (istream (request_bytes "POST /a HTTP/1.1".toList
        ["Content-Length: 5".toList] ++ "hello".toList.take 2))
      = .ok ({ method := "POST".toList, path := "/a".toList, http_version := "1.1".toList,
               header := insert_headers [] ["Content-Length: 5".toList] },
             istream ("hello".toList.take 2)) ∧
    headers_read false (request_bytes "POST /a HTTP/1.1".toList ["Content-Length: 5".toList]
        ++ "hello".toList.take 2)
        (request_bytes "POST /a HTTP/1.1".toList ["Content-Length: 5".toList]).length
      = .ok (.read_body (5 - 2)
          { method := "POST".toList, path := "/a".toList, http_version := "1.1".toList,
            header := insert_headers [] ["Content-Length: 5".toList] }
          ("hello".toList.take 2)) ∧
    async_read ("hello".toList.drop 2) ("hello".toList.take 2) (5 - 2)
      = (false, "hello".toList, []) ∧
    receive_request (request_bytes "POST /a HTTP/1.1".toList ["Content-Length: 5".toList]
        ++ "hello".toList) 2
      = .ok (some ({ method := "POST".toList, path := "/a".toList,
                     http_version := "1.1".toList,
                     header := insert_headers [] ["Content-Length: 5".toList],
                     content := some "hello".toList }, [])) :=
  body_assembled "POST /a HTTP/1.1".toList "POST".toList "/a".toList "1.1".toList
    ["Content-Length: 5".toList] "5".toList 5 2 "hello".toList
    (by decide) (by decide) (by decide) (by decide) (by decide) (by decide) (by decide)

/-- C6, a request outside the well-formed heads: the header block holds
`Content-Length: 5` and then a header folded over two lines. The second line
of the fold has no colon, so `parse_request` stops there and leaves the blank
line in the buffer; the content handed to `respond` is `"\r\nhello"`, not the
five body bytes. -/
theorem body_after_folded_header :
    find_delimiter
        "POST /a HTTP/1.1\r\nContent-Length: 5\r\nX-Note: a\r\n b\r\n\r\nhello".toList
      = some 54 ∧
    parse_request (istream
        "POST /a HTTP/1.1\r\nContent-Length: 5\r\nX-Note: a\r\n b\r\n\r\nhe".toList)
      = .ok ({ method := "POST".toList, path := "/a".toList, http_version := "1.1".toList,
               header := [("Content-Length".toList, "5".toList),
                          ("X-Note".toList, "a".toList)] },
             istream "\r\nhe".toList) ∧
    receive_request
        "POST /a HTTP/1.1\r\nContent-Length: 5\r\nX-Note: a\r\n b\r\n\r\nhello".toList 2
      = .ok (some ({ method := "POST".toList, path := "/a".toList,
                     http_version := "1.1".toList,
                     header := [("Content-Length".toList, "5".toList),
                                ("X-Note".toList, "a".toList)],
                     content := some "\r\nhello".toList }, [])) ∧
    ¬ (∃ request rest,
        receive_request
            "POST /a HTTP/1.1\r\nContent-Length: 5\r\nX-Note: a\r\n b\r\n\r\nhello".toList 2
          = .ok (some (request, rest)) ∧
        request.content = some "hello".toList) := by
  have h : receive_request
        "POST /a HTTP/1.1\r\nContent-Length: 5\r\nX-Note: a\r\n b\r\n\r\nhello".toList 2
      = .ok (some ({ method := "POST".toList, path := "/a".toList,
                     http_version := "1.1".toList,
                     header := [("Content-Length".toList, "5".toList),
                                ("X-Note".toList, "a".toList)],
                     content := some "\r\nhello".toList }, [])) := by decide
  refine ⟨by decide, by decide, h, ?_⟩
  rintro ⟨request, rest, h1, h2⟩
  rw [h] at h1
  simp only [Except.ok.injEq, Option.some.injEq, Prod.mk.injEq] at h1
  rw [← h1.1] at h2
  exact absurd h2 (by decide)

/-! ## Routing -/

theorem respond_skip (re : RegexEngine) (request : Request) (pre es : List (Str × MethodMap))
    (hpre : ∀ x ∈ pre, re x.1 request.path = .no_match) :
    respond re (pre ++ es) request
      = (pre ++ (respond re es request).1, (respond re es request).2) := by
  induction pre with
  | nil => simp
  | cons x xs ih =>
    have hx := hpre x (by simp)
    have ih2 := ih (fun y hy => hpre y (by simp [hy]))
    rw [List.cons_append, respond]
    simp only [hx]
    rw [ih2]
    rfl

theorem respond_first_match (re : RegexEngine) (request : Request)
    (pre : List (Str × MethodMap)) (entry : Str × MethodMap) (post : List (Str × MethodMap))
    (sm : List Str) (hpre : ∀ x ∈ pre, re x.1 request.path = .no_match)
    (he : re entry.1 request.path = .matched sm) :
    respond re (pre ++ entry :: post) request
      = (pre ++ (invoke entry sm request).1 :: post, (invoke entry sm request).2) := by
  rw [respond_skip re request pre _ hpre]
  simp only [respond, he]

theorem respond_regex_error (re : RegexEngine) (request : Request)
    (pre : List (Str × MethodMap)) (entry : Str × MethodMap) (post : List (Str × MethodMap))
    (hpre : ∀ x ∈ pre, re x.1 request.path = .no_match)
    (he : re entry.1 request.path = .regex_error) :
    respond re (pre ++ entry :: post) request
      = (pre ++ entry :: post, .error (.throws .regex_error)) := by
  rw [respond_skip re request pre _ hpre]
  simp only [respond, he]

theorem respond_no_route (re : RegexEngine) (request : Request) (all : List (Str × MethodMap))
    (h : ∀ x ∈ all, re x.1 request.path = .no_match) :
    respond re all request = (all, .ok .no_route) := by
  have := respond_skip re request all [] h
  simpa [respond] using this

/-! ## The order of the table -/

theorem mem_keys_register (t : resource_type) (pattern method : Str) (handler : Handler)
    (x : Str) :
    x ∈ (register t pattern method handler).map Prod.fst
      ↔ x = pattern ∨ x ∈ t.map Prod.fst := by
  induction t with
  | nil => simp [register]
  | cons e es ih =>
    obtain ⟨k, hs⟩ := e
    by_cases h1 : pattern < k
    · simp [register, h1]
    · by_cases h2 : pattern = k
      · subst h2
        simp [register]
      · simp only [register, h1, h2, if_false, List.map_cons, List.mem_cons, ih]
        tauto

theorem sorted_register (t : resource_type) (pattern method : Str) (handler : Handler)
    (hs : (t.map Prod.fst).Sorted (· < ·)) :
    ((register t pattern method handler).map Prod.fst).Sorted (· < ·) := by
  induction t with
  | nil => simp [register]
  | cons e es ih =>
    obtain ⟨k, hd⟩ := e
    simp only [List.map_cons, List.sorted_cons] at hs
    by_cases h1 : pattern < k
    · simp only [register, h1, if_true, List.map_cons, List.sorted_cons, List.mem_cons]
      refine ⟨?_, hs⟩
      rintro b (rfl | hb)
      · exact h1
      · exact lt_trans h1 (hs.1 b hb)
    · by_cases h2 : pattern = k
      · subst h2
        simp only [register, h1, if_false, if_true, List.map_cons, List.sorted_cons]
        exact hs
      · simp only [register, h1, h2, if_false, List.map_cons, List.sorted_cons]
        refine ⟨?_, ih hs.2⟩
        intro b hb
        rcases (mem_keys_register es pattern method handler b).mp hb with rfl | hb2
        · rcases lt_trichotomy b k with h3 | h3 | h3
          · exact absurd h3 h1
          · exact absurd h3 h2
          · exact h3
        · exact hs.1 b hb2

theorem build_from (registrations : List (Str × Str × Handler)) :
    ∀ t : resource_type, (t.map Prod.fst).Sorted (· < ·) →
      ((registrations.foldl (fun t r => register t r.1 r.2.1 r.2.2) t).map Prod.fst).Sorted
          (· < ·) ∧
      ∀ x, x ∈ (registrations.foldl (fun t r => register t r.1 r.2.1 r.2.2) t).map Prod.fst
        ↔ x ∈ t.map Prod.fst ∨ x ∈ registrations.map Prod.fst := by
  induction registrations with
  | nil => intro t ht; simp [ht]
  | cons r rs ih =>
    intro t ht
    have h := ih (register t r.1 r.2.1 r.2.2) (sorted_register t r.1 r.2.1 r.2.2 ht)
    refine ⟨h.1, ?_⟩
    intro x
    simp only [List.foldl_cons, h.2 x, mem_keys_register, List.map_cons, List.mem_cons]
    tauto

/-- The patterns of a table in iteration order are ascending, and they are the
patterns that were registered. -/
theorem build_sorted (registrations : List (Str × Str × Handler)) :
    ((build registrations).map Prod.fst).Sorted (· < ·) ∧
    ∀ x, x ∈ (build registrations).map Prod.fst ↔ x ∈ registrations.map Prod.fst := by
  have h := build_from registrations [] (by simp)
  refine ⟨h.1, ?_⟩
  intro x
  have := h.2 x
  simp only [List.map_nil, List.not_mem_nil, false_or] at this
  exact this

/-- The order of a table's patterns does not depend on the order in which
they were registered. -/
theorem build_order_independent (r1 r2 : List (Str × Str × Handler))
    (h : ∀ x, x ∈ r1.map Prod.fst ↔ x ∈ r2.map Prod.fst) :
    (build r1).map Prod.fst = (build r2).map Prod.fst := by
  have h1 := build_sorted r1
  have h2 := build_sorted r2
  apply List.eq_of_perm_of_sorted _ h1.1 h2.1
  rw [List.perm_ext_iff_of_nodup h1.1.nodup h2.1.nodup]
  intro x
  rw [h1.2, h2.2, h]

/-- C5. After `start()` the table scanned by `respond` is the explicit entries
in ascending pattern order followed by the default entries in ascending
pattern order, whatever the order of registration; `respond` hands the request
to the first entry of that sequence whose pattern matches the whole path and
tries no later entry, so a default entry is reached only when every explicit
entry failed to match; with no matching entry nothing is written, and a
pattern the library rejects before any match ends the scan with
`regex_error`. -/
theorem respond_selects_first_match (re : RegexEngine)
    (explicit fallback : List (Str × Str × Handler)) (request : Request) :
    (start { resource := build explicit, default_resource := build fallback }).all_resources
      = build explicit ++ build fallback ∧
    ((build explicit).map Prod.fst).Sorted (· < ·) ∧
    ((build fallback).map Prod.fst).Sorted (· < ·) ∧
    (∀ x, x ∈ (build explicit).map Prod.fst ↔ x ∈ explicit.map Prod.fst) ∧
    (∀ x, x ∈ (build fallback).map Prod.fst ↔ x ∈ fallback.map Prod.fst) ∧
    (∀ explicit2 : List (Str × Str × Handler),
      (∀ x, x ∈ explicit2.map Prod.fst ↔ x ∈ explicit.map Prod.fst) →
      (build explicit2).map Prod.fst = (build explicit).map Prod.fst) ∧
    (∀ (pre : List (Str × MethodMap)) (entry : Str × MethodMap) (post : List (Str × MethodMap))
        (sm : List Str),
      build explicit ++ build fallback = pre ++ entry :: post →
      (∀ x ∈ pre, re x.1 request.path = .no_match) →
      re entry.1 request.path = .matched sm →
      respond re (build explicit ++ build fallback) request
          = (pre ++ (invoke entry sm request).1 :: post, (invoke entry sm request).2) ∧
        ((build explicit).length ≤ pre.length →
          ∀ x ∈ build explicit, re x.1 request.path = .no_match)) ∧
    ((∀ x ∈ build explicit ++ build fallback, re x.1 request.path = .no_match) →
      respond re (build explicit ++ build fallback) request
        = (build explicit ++ build fallback, .ok .no_route)) ∧
    (∀ (pre : List (Str × MethodMap)) (entry : Str × MethodMap) (post : List (Str × MethodMap)),
      build explicit ++ build fallback = pre ++ entry :: post →
      (∀ x ∈ pre, re x.1 request.path = .no_match) →
      re entry.1 request.path = .regex_error →
      respond re (build explicit ++ build fallback) request
        = (build explicit ++ build fallback, .error (.throws .regex_error))) := by
  refine ⟨by simp [start], (build_sorted explicit).1, (build_sorted fallback).1,
    (build_sorted explicit).2, (build_sorted fallback).2,
    fun e2 h => build_order_independent e2 explicit h, ?_,
    fun h => respond_no_route re request _ h, ?_⟩
  swap
  · intro pre entry post hsplit hpre he
    rw [hsplit]
    exact respond_regex_error re request pre entry post hpre he
  intro pre entry post sm hsplit hpre he
  refine ⟨?_, ?_⟩
  · rw [hsplit]
    exact respond_first_match re request pre entry post sm hpre he
  · intro hlen x hx
    apply hpre
    have h1 : (build explicit ++ build fallback).take (build explicit).length
        = build explicit := List.take_left _ _
    rw [hsplit, List.take_append_of_le_length hlen] at h1
    rw [← h1] at hx
    exact List.mem_of_mem_take hx

/-- C5 at a table whose explicit patterns were registered in descending
order and whose default table repeats one of them: a request for that path is
handed to the explicit entry, which stands first after sorting. -/
theorem respond_selects_first_match_witness :
    respond literal_regex
        (build [("/b".toList, "GET".toList, some (fixed_handler "b".toList)),
                ("/a".toList, "GET".toList, some (fixed_handler "a".toList))]
          ++ build [("/a".toList, "GET".toList, some (fixed_handler "default".toList))])
        { method := "GET".toList, path := "/a".toList, http_version := "1.1".toList }
      = ([] ++ (invoke ("/a".toList, [("GET".toList, some (fixed_handler "a".toList))])
            ["/a".toList]
            { method := "GET".toList, path := "/a".toList, http_version := "1.1".toList }).1
          :: [("/b".toList, [("GET".toList, some (fixed_handler "b".toList))]),
              ("/a".toList, [("GET".toList, some (fixed_handler "default".toList))])],
        (invoke ("/a".toList, [("GET".toList, some (fixed_handler "a".toList))])
            ["/a".toList]
            { method := "GET".toList, path := "/a".toList, http_version := "1.1".toList }).2) ∧
      ((build [("/b".toList, "GET".toList, some (fixed_handler "b".toList)),
               ("/a".toList, "GET".toList, some (fixed_handler "a".toList))]).length
          ≤ ([] : List (Str × MethodMap)).length →
        ∀ x ∈ build [("/b".toList, "GET".toList, some (fixed_handler "b".toList)),
                     ("/a".toList, "GET".toList, some (fixed_handler "a".toList))],
          literal_regex x.1
            ({ method := "GET".toList, path := "/a".toList,
               http_version := "1.1".toList } : Request).path = .no_match) :=
  (respond_selects_first_match literal_regex
    [("/b".toList, "GET".toList, some (fixed_handler "b".toList)),
     ("/a".toList, "GET".toList, some (fixed_handler "a".toList))]
    [("/a".toList, "GET".toList, some (fixed_handler "default".toList))]
    { method := "GET".toList, path := "/a".toList, http_version := "1.1".toList }).2.2.2.2.2.2.1
    [] ("/a".toList, [("GET".toList, some (fixed_handler "a".toList))])
    [("/b".toList, [("GET".toList, some (fixed_handler "b".toList))]),
     ("/a".toList, [("GET".toList, some (fixed_handler "default".toList))])]
    ["/a".toList] rfl (by simp) (by decide)

/-- C1 (what the code does). When the first entry whose pattern matches the
path has no handler for the request's method, `respond` inserts an empty
function under that method and calls it: `bad_function_call` is thrown and
nothing is written. -/
theorem respond_missing_method_throws (re : RegexEngine) (request : Request)
    (pre : List (Str × MethodMap)) (entry : Str × MethodMap) (post : List (Str × MethodMap))
    (sm : List Str) (hpre : ∀ x ∈ pre, re x.1 request.path = .no_match)
    (he : re entry.1 request.path = .matched sm)
    (hmiss : UMap.find entry.2 request.method = none) :
    respond re (pre ++ entry :: post) request
      = (pre ++ (entry.1, UMap.assign entry.2 request.method none) :: post,
          .error (.throws .bad_function_call)) := by
  rw [respond_first_match re request pre entry post sm hpre he]
  simp only [invoke, hmiss]

/-- C1 at a table with one entry that has a `GET` handler, for a `DELETE`
request on its path. -/
theorem respond_missing_method_throws_witness :
    respond literal_regex
        ([] ++ ("/users".toList, [("GET".toList, some (fixed_handler "ok".toList))]) :: [])
        { method := "DELETE".toList, path := "/users".toList, http_version := "1.1".toList }
      = ([] ++ ("/users".toList,
            UMap.assign [("GET".toList, some (fixed_handler "ok".toList))]
              "DELETE".toList none) :: [],
          .error (.throws .bad_function_call)) :=
  respond_missing_method_throws literal_regex
    { method := "DELETE".toList, path := "/users".toList, http_version := "1.1".toList }
    [] ("/users".toList, [("GET".toList, some (fixed_handler "ok".toList))]) []
    ["/users".toList] (by simp) (by decide) rfl

/-! ## Rounding a version number to `float` -/

theorem bit_length_aux_bounds :
    ∀ (fuel x : Nat), x ≤ fuel → 1 ≤ x →
      1 ≤ bit_length_aux fuel x ∧ 2 ^ (bit_length_aux fuel x - 1) ≤ x ∧
        x < 2 ^ bit_length_aux fuel x := by
  intro fuel
  induction fuel with
  | zero => intro x h1 h2; omega
  | succ f ih =>
    intro x h1 h2
    have hx : x ≠ 0 := by omega
    simp only [bit_length_aux, hx, if_false]
    by_cases h0 : x / 2 = 0
    · have hx1 : x = 1 := by omega
      have hz : bit_length_aux f 0 = 0 := by
        cases f <;> simp [bit_length_aux]
      rw [h0, hz, hx1]
      simp
    · obtain ⟨a1, a2, a3⟩ := ih (x / 2) (by omega) (by omega)
      generalize bit_length_aux f (x / 2) = a at a1 a2 a3
      obtain ⟨b, rfl⟩ : ∃ b, a = b + 1 := ⟨a - 1, by omega⟩
      simp only [Nat.add_sub_cancel] at a2 ⊢
      rw [pow_succ] at a3 ⊢
      rw [pow_succ, pow_succ]
      refine ⟨by omega, by omega, by omega⟩

theorem floor_log2_ge (n d : Nat) (hd : 0 < d) (h : d ≤ n) :
    ∃ E : Nat, floor_log2 n d = (E : Int) ∧ 2 ^ E * d ≤ n ∧ n < 2 ^ (E + 1) * d := by
  have hx : 1 ≤ n / d := (Nat.one_le_div_iff hd).mpr h
  obtain ⟨a1, a2, a3⟩ := bit_length_aux_bounds (n / d) (n / d) le_rfl hx
  refine ⟨bit_length (n / d) - 1, ?_, ?_, ?_⟩
  · simp only [floor_log2, h, if_true, bit_length]
    omega
  · exact (Nat.le_div_iff_mul_le hd).mp a2
  · have : bit_length (n / d) - 1 + 1 = bit_length_aux (n / d) (n / d) := by
      simp only [bit_length]; omega
    rw [this]
    exact (Nat.div_lt_iff_lt_mul hd).mp a3

theorem floor_log2_lt (n d : Nat) (hn : 0 < n) (h : n < d) : floor_log2 n d ≤ -1 := by
  have hx : 1 ≤ (d - 1) / n := (Nat.one_le_div_iff hn).mpr (by omega)
  obtain ⟨a1, _, _⟩ := bit_length_aux_bounds ((d - 1) / n) ((d - 1) / n) le_rfl hx
  have hnd : ¬ d ≤ n := by omega
  simp only [floor_log2, hnd, if_false, bit_length]
  omega

theorem round_half_even_ge (N D : Nat) : N / D ≤ round_half_even N D := by
  unfold round_half_even
  split <;> omega

theorem round_half_even_le (N D : Nat) : round_half_even N D ≤ N / D + 1 := by
  unfold round_half_even
  split <;> omega

theorem exceeds_small (k j : Nat) (hk : k ≤ 2 ^ j) :
    exceeds_1_05 (.finite false k (-(j : Int))) = false := by
  simp only [exceeds_1_05, Bool.not_false, Bool.true_and]
  by_cases h : j ≤ 52
  · have e : (-(j : Int) + 52).toNat = 52 - j := by omega
    have hp : 2 ^ j * 2 ^ (52 - j) = 2 ^ 52 := by
      rw [← pow_add]; congr 1; omega
    have hle : k * 2 ^ (52 - j) ≤ 2 ^ j * 2 ^ (52 - j) := Nat.mul_le_mul_right _ hk
    rw [if_pos (by omega), e, decide_eq_false_iff_not]
    rw [hp] at hle
    omega
  · have e : (-(-(j : Int) + 52)).toNat = j - 52 := by omega
    have hp : 2 ^ 52 * 2 ^ (j - 52) = 2 ^ j := by
      rw [← pow_add]; congr 1; omega
    have hpos : 0 < 2 ^ (j - 52) := Nat.two_pow_pos _
    rw [if_neg (by omega), e, decide_eq_false_iff_not]
    rw [← hp] at hk
    generalize 2 ^ (j - 52) = P at hk hpos
    omega

theorem exceeds_large (k E : Nat) (hE : 1 ≤ E) (hk : 2 ^ 23 ≤ k) :
    exceeds_1_05 (.finite false k ((E : Int) - 23)) = true := by
  simp only [exceeds_1_05, Bool.not_false, Bool.true_and]
  have e : ((E : Int) - 23 + 52).toNat = E + 29 := by omega
  have h1 : 2 ^ 30 ≤ 2 ^ (E + 29) := Nat.pow_le_pow_right (by norm_num) (by omega)
  have h2 : 2 ^ 23 * 2 ^ 30 ≤ k * 2 ^ (E + 29) := Nat.mul_le_mul hk h1
  rw [if_pos (by omega), e, decide_eq_true_iff]
  omega

theorem exceeds_unit (k : Nat) :
    exceeds_1_05 (.finite false k (-23)) = decide (8808039 ≤ k) := by
  simp only [exceeds_1_05, Bool.not_false, Bool.true_and]
  have e : ((-23 : Int) + 52).toNat = 29 := by decide
  rw [if_pos (by decide), e]
  by_cases h : 8808039 ≤ k
  · rw [decide_eq_true h, decide_eq_true_iff]; omega
  · rw [decide_eq_false h, decide_eq_false_iff_not]; omega

theorem rounding_exponent_ge (n d E : Nat) (h : floor_log2 n d = (E : Int)) :
    rounding_exponent n d = (E : Int) - 23 := by
  simp only [rounding_exponent, h]
  omega

theorem is_tiny_ge (n d E : Nat) (h : floor_log2 n d = (E : Int)) : is_tiny n d = false := by
  have : ¬ ((E : Int) < -126) := by omega
  simp [is_tiny, h, this]

/-- A value below one is rounded to at most one. -/
theorem round_binary32_lt_one (n d : Nat) (hn : 0 < n) (h : n < d) (k : Nat) (q : Int)
    (hr : round_binary32 n d = .ok (k, q)) : exceeds_1_05 (.finite false k q) = false := by
  have he := floor_log2_lt n d hn h
  have hd : 0 < d := by omega
  obtain ⟨j, hj⟩ : ∃ j : Nat, rounding_exponent n d = -(j : Int) := by
    refine ⟨(-(rounding_exponent n d)).toNat, ?_⟩
    simp only [rounding_exponent]
    omega
  have hj0 : ¬ (0 : Int) ≤ -(j : Int) := by
    rw [← hj]
    simp only [rounding_exponent]
    omega
  unfold round_binary32 at hr
  rw [if_neg (by omega)] at hr
  split at hr
  · cases hr
  · split at hr
    · cases hr
    · simp only [Except.ok.injEq, Prod.mk.injEq] at hr
      obtain ⟨hk, hq⟩ := hr
      rw [← hq, hj]
      apply exceeds_small
      rw [← hk, hj]
      simp only [scale_num, scale_den, hj0, if_false, neg_neg, Int.toNat_ofNat]
      have hpos : 0 < 2 ^ j := Nat.two_pow_pos _
      have hlt : n * 2 ^ j / d < 2 ^ j := by
        rw [Nat.div_lt_iff_lt_mul hd]
        exact Nat.mul_lt_mul_of_lt_of_le' h le_rfl hpos |>.trans_le (by rw [Nat.mul_comm])
      have := round_half_even_le (n * 2 ^ j) d
      omega

theorem round_binary32_low (n d E : Nat) (hn : 0 < n) (hfl : floor_log2 n d = (E : Int))
    (hE : E < 23) :
    round_binary32 n d = .ok (round_half_even (n * 2 ^ (23 - E)) d, (E : Int) - 23) := by
  have hq : ¬ (0 : Int) ≤ (E : Int) - 23 := by omega
  have e : (-((E : Int) - 23)).toNat = 23 - E := by omega
  unfold round_binary32
  rw [if_neg (by omega), rounding_exponent_ge n d E hfl, is_tiny_ge n d E hfl]
  simp only [scale_num, scale_den, hq, if_false, e, false_and, Bool.false_eq_true, and_false]

theorem round_binary32_high (n d t : Nat) (hn : 0 < n)
    (hfl : floor_log2 n d = ((t + 23 : Nat) : Int)) :
    round_binary32 n d
      = if 2 ^ 128 ≤ round_half_even n (d * 2 ^ t) * 2 ^ t then .error (.throws .out_of_range)
        else .ok (round_half_even n (d * 2 ^ t), ((t + 23 : Nat) : Int) - 23) := by
  have hq : (0 : Int) ≤ ((t + 23 : Nat) : Int) - 23 := by omega
  have e : (((t + 23 : Nat) : Int) - 23).toNat = t := by omega
  unfold round_binary32
  rw [if_neg (by omega), rounding_exponent_ge n d (t + 23) hfl, is_tiny_ge n d (t + 23) hfl]
  simp only [scale_num, scale_den, hq, if_true, e, true_and, Bool.false_eq_true, and_false,
    if_false]

theorem round_half_even_eq (N D fl r : Nat) (h : N = D * fl + r) (hr : r < D) :
    round_half_even N D = if D < 2 * r ∨ (2 * r = D ∧ fl % 2 = 1) then fl + 1 else fl := by
  have hD : 0 < D := by omega
  have h1 : N / D = fl := by
    rw [h, Nat.mul_add_div hD, Nat.div_eq_of_lt hr, Nat.add_zero]
  have h2 : N % D = r := by
    rw [h, Nat.mul_add_mod, Nat.mod_eq_of_lt hr]
  simp only [round_half_even, h1, h2]

/-- Rounding a value in `[1, 2)`: the result is above the `double` 1.05 exactly
when the value is above the midpoint of the two `float`s around 1.05. -/
theorem round_half_even_unit (n d : Nat) (hd : 0 < d) :
    8808039 ≤ round_half_even (n * 2 ^ 23) d ↔ 17616077 * d < n * 2 ^ 24 := by
  have hge := round_half_even_ge (n * 2 ^ 23) d
  have hle := round_half_even_le (n * 2 ^ 23) d
  rcases Nat.lt_trichotomy (n * 2 ^ 23 / d) 8808038 with h | h | h
  · have h1 := (Nat.div_lt_iff_lt_mul hd).mp h
    constructor <;> intro hh <;> omega
  · have hr := Nat.mod_lt (n * 2 ^ 23) hd
    have hdm := Nat.div_add_mod (n * 2 ^ 23) d
    rw [h] at hdm
    rw [round_half_even_eq (n * 2 ^ 23) d 8808038 (n * 2 ^ 23 % d) hdm.symm hr]
    split <;> constructor <;> intro hh <;> omega
  · have h1 := (Nat.le_div_iff_mul_le hd).mp (Nat.succ_le_of_lt h)
    constructor <;> intro hh <;> omega

/-- Rounding a value in `[2^127, 2^128)`: the result reaches `2^128` exactly when
the value is at least the midpoint of the largest `float` and `2^128`. -/
theorem round_half_even_top (n d : Nat) (hd : 0 < d) (h : n < 2 ^ 24 * (d * 2 ^ 104)) :
    2 ^ 128 ≤ round_half_even n (d * 2 ^ 104) * 2 ^ 104
      ↔ (2 ^ 25 - 1) * 2 ^ 103 * d ≤ n := by
  have hD : 0 < d * 2 ^ 104 := by omega
  have hge := round_half_even_ge n (d * 2 ^ 104)
  have hle := round_half_even_le n (d * 2 ^ 104)
  have hfl : n / (d * 2 ^ 104) < 2 ^ 24 := (Nat.div_lt_iff_lt_mul hD).mpr h
  rcases Nat.lt_or_ge (n / (d * 2 ^ 104)) (2 ^ 24 - 1) with h1 | h1
  · have h2 := (Nat.div_lt_iff_lt_mul hD).mp h1
    constructor <;> intro hh <;> omega
  · have h3 : n / (d * 2 ^ 104) = 2 ^ 24 - 1 := by omega
    have hr := Nat.mod_lt n hD
    have hdm := Nat.div_add_mod n (d * 2 ^ 104)
    rw [h3] at hdm
    rw [round_half_even_eq n (d * 2 ^ 104) (2 ^ 24 - 1) (n % (d * 2 ^ 104)) hdm.symm hr]
    split <;> constructor <;> intro hh <;> omega

/-- The fraction `n/d` is converted without `ERANGE` to a `float` above the
`double` 1.05 exactly when it lies above the midpoint `17616077 / 2^24` of the
two `float`s around 1.05 and below the midpoint `(2^25 - 1) * 2^103` of the
largest `float` and `2^128`. -/
theorem round_binary32_keep_alive (n d : Nat) (hd : 0 < d) :
    (∃ k q, round_binary32 n d = .ok (k, q) ∧ exceeds_1_05 (.finite false k q) = true) ↔
      17616077 * d < n * 2 ^ 24 ∧ n < (2 ^ 25 - 1) * 2 ^ 103 * d := by
  rcases Nat.eq_zero_or_pos n with hn | hn
  · subst hn
    constructor
    · rintro ⟨k, q, hr, hx⟩
      simp only [round_binary32, if_true, Except.ok.injEq, Prod.mk.injEq] at hr
      rw [← hr.1, ← hr.2] at hx
      exact absurd hx (by decide)
    · intro h; omega
  rcases Nat.lt_or_ge n d with hlt | hge
  · constructor
    · rintro ⟨k, q, hr, hx⟩
      rw [round_binary32_lt_one n d hn hlt k q hr] at hx
      exact absurd hx (by decide)
    · intro h; omega
  obtain ⟨E, hfl, hlo, hhi⟩ := floor_log2_ge n d hd hge
  rcases Nat.lt_or_ge E 23 with hE | hE
  · have hr := round_binary32_low n d E hn hfl hE
    rcases Nat.eq_zero_or_pos E with h0 | h0
    · subst h0
      simp only [pow_zero, one_mul, zero_add, pow_one] at hlo hhi
      have hu := round_half_even_unit n d hd
      simp only [Nat.sub_zero, Nat.cast_zero, zero_sub] at hr
      constructor
      · rintro ⟨k, q, hr2, hx⟩
        rw [hr] at hr2
        simp only [Except.ok.injEq, Prod.mk.injEq] at hr2
        rw [← hr2.1, ← hr2.2, exceeds_unit, decide_eq_true_iff] at hx
        exact ⟨hu.mp hx, by omega⟩
      · intro h
        refine ⟨_, _, hr, ?_⟩
        rw [exceeds_unit, decide_eq_true_iff]
        exact hu.mpr h.1
    · have hp : 2 ^ (23 - E) * 2 ^ E = 2 ^ 23 := by
        rw [← pow_add]; congr 1; omega
      have h2 : 2 ≤ 2 ^ E := by
        calc 2 = 2 ^ 1 := by norm_num
          _ ≤ 2 ^ E := Nat.pow_le_pow_right (by norm_num) h0
      have h3 : 2 ^ (E + 1) ≤ 2 ^ 23 := Nat.pow_le_pow_right (by norm_num) (by omega)
      have h4 : 2 * d ≤ 2 ^ E * d := Nat.mul_le_mul_right d h2
      have h5 : 2 ^ (E + 1) * d ≤ 2 ^ 23 * d := Nat.mul_le_mul_right d h3
      have hk : 2 ^ 23 ≤ round_half_even (n * 2 ^ (23 - E)) d := by
        refine le_trans ?_ (round_half_even_ge _ _)
        rw [Nat.le_div_iff_mul_le hd, ← hp, Nat.mul_assoc, Nat.mul_comm n]
        exact Nat.mul_le_mul_left _ hlo
      constructor
      · intro _; omega
      · intro _
        exact ⟨_, _, hr, exceeds_large _ E h0 hk⟩
  · obtain ⟨t, rfl⟩ : ∃ t, E = t + 23 := ⟨E - 23, by omega⟩
    have hr := round_binary32_high n d t hn hfl
    have hlo2 : 2 ^ 23 * (d * 2 ^ t) ≤ n := by
      have : 2 ^ (t + 23) * d = 2 ^ 23 * (d * 2 ^ t) := by
        rw [pow_add]; ring
      rw [← this]; exact hlo
    have hhi2 : n < 2 ^ 24 * (d * 2 ^ t) := by
      have : 2 ^ (t + 23 + 1) * d = 2 ^ 24 * (d * 2 ^ t) := by
        rw [show t + 23 + 1 = t + 24 by omega, pow_add]; ring
      rw [← this]; exact hhi
    have hD : 0 < d * 2 ^ t := Nat.mul_pos hd (Nat.two_pow_pos t)
    have hk1 : 2 ^ 23 ≤ round_half_even n (d * 2 ^ t) :=
      le_trans ((Nat.le_div_iff_mul_le hD).mpr hlo2) (round_half_even_ge _ _)
    have hk2 : round_half_even n (d * 2 ^ t) ≤ 2 ^ 24 := by
      have := (Nat.div_lt_iff_lt_mul hD).mpr hhi2
      have := round_half_even_le n (d * 2 ^ t)
      omega
    have hx : exceeds_1_05 (.finite false (round_half_even n (d * 2 ^ t))
        (((t + 23 : Nat) : Int) - 23)) = true := exceeds_large _ (t + 23) (by omega) hk1
    have hd1 : d ≤ d * 2 ^ t := Nat.le_mul_of_pos_right d (Nat.two_pow_pos t)
    rcases Nat.lt_trichotomy t 104 with ht | ht | ht
    · have hp : 2 ^ t ≤ 2 ^ 103 := Nat.pow_le_pow_right (by norm_num) (by omega)
      have h6 : round_half_even n (d * 2 ^ t) * 2 ^ t ≤ 2 ^ 24 * 2 ^ 103 :=
        Nat.mul_le_mul hk2 hp
      have h7 : d * 2 ^ t ≤ d * 2 ^ 103 := Nat.mul_le_mul_left d hp
      rw [if_neg (by omega)] at hr
      constructor
      · intro _; omega
      · intro _; exact ⟨_, _, hr, hx⟩
    · subst ht
      have htop := round_half_even_top n d hd hhi2
      constructor
      · rintro ⟨k, q, hr2, _⟩
        rw [hr] at hr2
        split at hr2
        · cases hr2
        · rename_i hno
          rw [htop] at hno
          omega
      · intro h
        rw [if_neg (by rw [htop]; omega)] at hr
        exact ⟨_, _, hr, hx⟩
    · have hp : 2 ^ 105 ≤ 2 ^ t := Nat.pow_le_pow_right (by norm_num) (by omega)
      have h6 : 2 ^ 23 * 2 ^ 105 ≤ round_half_even n (d * 2 ^ t) * 2 ^ t :=
        Nat.mul_le_mul hk1 hp
      have h7 : d * 2 ^ 105 ≤ d * 2 ^ t := Nat.mul_le_mul_left d hp
      rw [if_pos (by omega)] at hr
      constructor
      · rintro ⟨k, q, hr2, _⟩
        rw [hr] at hr2
        cases hr2
      · intro h; omega

/-! ## Versions written as decimal digits -/

theorem digit_cases (c : Char) (h : c.isDigit = true) :
    c ∈ ['0', '1', '2', '3', '4', '5', '6', '7', '8', '9'] := by
  have h1 : 48 ≤ c.toNat ∧ c.toNat ≤ 57 := by
    simp only [Char.isDigit, Bool.and_eq_true, decide_eq_true_eq] at h
    exact ⟨h.1, h.2⟩
  have h2 : c = Char.ofNat c.toNat := (Char.ofNat_toNat c).symm
  obtain ⟨h3, h4⟩ := h1
  generalize c.toNat = n at h2 h3 h4
  subst h2
  interval_cases n <;> decide

theorem digit_facts (c : Char) (h : c.isDigit = true) :
    isspace c = false ∧ c ≠ '-' ∧ c ≠ '+' ∧ c.toLower = c ∧ 'i' ≠ c ∧ 'n' ≠ c ∧ 'x' ≠ c ∧
      c ≠ '.' ∧ is_base_digit 10 c = true := by
  have key : ∀ c ∈ ['0', '1', '2', '3', '4', '5', '6', '7', '8', '9'],
      isspace c = false ∧ c ≠ '-' ∧ c ≠ '+' ∧ c.toLower = c ∧ 'i' ≠ c ∧ 'n' ≠ c ∧ 'x' ≠ c ∧
        c ≠ '.' ∧ is_base_digit 10 c = true := by decide
  exact key c (digit_cases c h)

theorem takeWhile_all (p : Char → Bool) (l : Str) (h : ∀ c ∈ l, p c = true) :
    l.takeWhile p = l := by
  induction l with
  | nil => rfl
  | cons c cs ih =>
    rw [List.takeWhile_cons, h c (by simp), ih (fun x hx => h x (by simp [hx]))]
    rfl

theorem dropWhile_all (p : Char → Bool) (l : Str) (h : ∀ c ∈ l, p c = true) :
    l.dropWhile p = [] := by
  induction l with
  | nil => rfl
  | cons c cs ih =>
    rw [List.dropWhile_cons, h c (by simp)]
    exact ih (fun x hx => h x (by simp [hx]))

theorem takeWhile_stop (p : Char → Bool) (l r : Str) (x : Char)
    (h : ∀ c ∈ l, p c = true) (hx : p x = false) : (l ++ x :: r).takeWhile p = l := by
  induction l with
  | nil => simp [List.takeWhile_cons, hx]
  | cons c cs ih =>
    rw [List.cons_append, List.takeWhile_cons, h c (by simp),
      ih (fun y hy => h y (by simp [hy]))]
    rfl

theorem dropWhile_stop (p : Char → Bool) (l r : Str) (x : Char)
    (h : ∀ c ∈ l, p c = true) (hx : p x = false) : (l ++ x :: r).dropWhile p = x :: r := by
  induction l with
  | nil => simp [List.dropWhile_cons, hx]
  | cons c cs ih =>
    rw [List.cons_append, List.dropWhile_cons, h c (by simp)]
    exact ih (fun y hy => h y (by simp [hy]))

theorem parse_mantissa_fraction (ip fp : Str) (hip : ip ≠ [])
    (hipd : ∀ c ∈ ip, c.isDigit = true) (hfpd : ∀ c ∈ fp, c.isDigit = true) :
    parse_mantissa 10 'e' (ip ++ '.' :: fp)
      = some (digits_value 10 (ip ++ fp), -(fp.length : Int)) := by
  have h1 : ∀ c ∈ ip, is_base_digit 10 c = true := fun c hc => (digit_facts c (hipd c hc)).2.2.2.2.2.2.2.2
  have h2 : ∀ c ∈ fp, is_base_digit 10 c = true := fun c hc => (digit_facts c (hfpd c hc)).2.2.2.2.2.2.2.2
  have h3 : is_base_digit 10 '.' = false := by decide
  unfold parse_mantissa
  simp only [takeWhile_stop _ ip fp '.' h1 h3, dropWhile_stop _ ip fp '.' h1 h3, if_true,
    takeWhile_all _ fp h2, dropWhile_all _ fp h2, hip, false_and, if_false, parse_exponent]
  simp

theorem parse_mantissa_integer (ip : Str) (hip : ip ≠ [])
    (hipd : ∀ c ∈ ip, c.isDigit = true) :
    parse_mantissa 10 'e' ip = some (digits_value 10 (ip ++ []), -(([] : Str).length : Int)) := by
  have h1 : ∀ c ∈ ip, is_base_digit 10 c = true := fun c hc => (digit_facts c (hipd c hc)).2.2.2.2.2.2.2.2
  unfold parse_mantissa
  simp only [takeWhile_all _ ip h1, dropWhile_all _ ip h1, hip, false_and, if_false,
    parse_exponent]
  simp

theorem strip_leading_x (rest : Str) (hr : ∀ c ∈ rest, c.isDigit = true ∨ c = '.') :
    strip_leading ['x'] (rest.map Char.toLower) = none := by
  cases rest with
  | nil => rfl
  | cons c cs =>
    have hx : ¬ 'x' = c.toLower := by
      rcases hr c (by simp) with h | h
      · rw [(digit_facts c h).2.2.2.1]
        exact (digit_facts c h).2.2.2.2.2.2.1
      · subst h; decide
    simp only [List.map_cons, strip_leading, hx, if_false]

/-- The call `stof` on a text that starts with a digit and holds only digits
and points: no white space, sign, `inf`, `nan` or `0x` is read, and the
decimal digits are converted. -/
theorem stof_of_digit_head (c0 : Char) (rest : Str) (m : Nat) (e : Int)
    (h0 : c0.isDigit = true) (hr : ∀ c ∈ rest, c.isDigit = true ∨ c = '.')
    (hp : parse_mantissa 10 'e' (c0 :: rest) = some (m, e)) :
    stof (c0 :: rest) = round_scaled false 10 m e := by
  obtain ⟨f1, f2, f3, f4, f5, f6, _, _, _⟩ := digit_facts c0 h0
  have hs : strip_sign (c0 :: rest) = (false, c0 :: rest) := by
    simp only [strip_sign, f2, f3, if_false]
  have hhex : (strip_leading ['0', 'x'] (c0 :: rest.map Char.toLower)) = none := by
    by_cases hz : '0' = c0
    · simp only [strip_leading, hz, if_true, strip_leading_x rest hr]
    · simp only [strip_leading, hz, if_false]
  unfold stof
  simp only [List.dropWhile_cons, f1, Bool.false_eq_true, if_false, hs, List.map_cons, f4,
    strip_leading, f5, f6, Option.isSome_none, hhex, Option.none_bind, hp]

theorem stof_decimal (version ip fp : Str) (hip : ip ≠ [])
    (hipd : ∀ c ∈ ip, c.isDigit = true) (hfpd : ∀ c ∈ fp, c.isDigit = true)
    (hform : version = ip ++ '.' :: fp ∨ (version = ip ∧ fp = [])) :
    stof version = round_scaled false 10 (digits_value 10 (ip ++ fp)) (-(fp.length : Int)) := by
  obtain ⟨c0, ip1, rfl⟩ : ∃ c0 ip1, ip = c0 :: ip1 := by
    cases ip with
    | nil => exact absurd rfl hip
    | cons c cs => exact ⟨c, cs, rfl⟩
  have h0 := hipd c0 (by simp)
  rcases hform with hf | ⟨hf, hfp⟩
  · subst hf
    have hp := parse_mantissa_fraction (c0 :: ip1) fp hip hipd hfpd
    rw [List.cons_append] at hp ⊢
    apply stof_of_digit_head c0 _ _ _ h0 _ hp
    intro c hc
    rcases List.mem_append.mp hc with h | h
    · exact Or.inl (hipd c (by simp [h]))
    · rcases List.mem_cons.mp h with h | h
      · exact Or.inr h
      · exact Or.inl (hfpd c h)
  · subst hf hfp
    have hp := parse_mantissa_integer (c0 :: ip1) hip hipd
    exact stof_of_digit_head c0 ip1 _ _ h0 (fun c hc => Or.inl (hipd c (by simp [hc]))) hp

/-- A decimal value `m / 10^f` is converted without `ERANGE` to a `float` above
the `double` 1.05 exactly when it lies strictly between the two midpoints. -/
theorem round_scaled_keep_alive (m f : Nat) :
    (∃ value, round_scaled false 10 m (-(f : Int)) = .ok value ∧ exceeds_1_05 value = true) ↔
      17616077 * 10 ^ f < m * 2 ^ 24 ∧ m < (2 ^ 25 - 1) * 2 ^ 103 * 10 ^ f := by
  have hpos : 0 < 10 ^ f := Nat.pos_pow_of_pos f (by norm_num)
  have key : ∀ n d : Nat,
      (∃ value, (match round_binary32 n d with
          | .error g => (.error g : Except Fault FloatVal)
          | .ok (k, q) => .ok (.finite false k q)) = .ok value ∧ exceeds_1_05 value = true) ↔
        ∃ k q, round_binary32 n d = .ok (k, q) ∧ exceeds_1_05 (.finite false k q) = true := by
    intro n d
    cases hr : round_binary32 n d with
    | error g => simp
    | ok kq =>
      obtain ⟨k, q⟩ := kq
      constructor
      · rintro ⟨value, h1, h2⟩
        simp only [Except.ok.injEq] at h1
        exact ⟨k, q, rfl, h1 ▸ h2⟩
      · rintro ⟨k2, q2, h1, h2⟩
        simp only [Except.ok.injEq, Prod.mk.injEq] at h1
        exact ⟨_, rfl, by rw [h1.1, h1.2]; exact h2⟩
  unfold round_scaled
  rcases Nat.eq_zero_or_pos f with hf | hf
  · subst hf
    simp only [Nat.cast_zero, neg_zero, le_refl, if_true, Int.toNat_zero, pow_zero, mul_one]
    rw [key, round_binary32_keep_alive m 1 (by norm_num)]
    simp
  · have hneg : ¬ (0 : Int) ≤ -(f : Int) := by omega
    simp only [hneg, if_false, neg_neg, Int.toNat_ofNat]
    rw [key, round_binary32_keep_alive m (10 ^ f) hpos]

theorem digits_value_append (b : Nat) (ds : Str) (c : Char) :
    digits_value b (ds ++ [c]) = b * digits_value b ds + digit_value c := by
  simp [digits_value, List.foldl_append]

/-- The conversion of decimal digits by `strtof` and `strtoull` yields the
number the digits write. -/
theorem digits_value_decimal (ds : Str) (h : ∀ c ∈ ds, c.isDigit = true) :
    digits_value 10 ds = decimal_number ds := by
  induction ds using List.reverseRecOn with
  | nil => simp [digits_value, decimal_number]
  | append_singleton ds c ih =>
    have hc : c.isDigit = true := h c (by simp)
    rw [digits_value_append, ih (fun x hx => h x (by simp [hx]))]
    simp [decimal_number, Nat.ofDigits_cons, digit_value, hc]
    omega

/-! ## Keep-alive -/

theorem stof_1_1 : stof "1.1".toList = .ok (.finite false 9227469 (-23)) := by decide

theorem stof_1_0 : stof "1.0".toList = .ok (.finite false 8388608 (-23)) := by decide

theorem stof_1_05 : stof "1.05".toList = .ok (.finite false 8808038 (-23)) := by decide

theorem stof_1_05000001 :
    stof "1.05000001".toList = .ok (.finite false 8808038 (-23)) := by decide

theorem stof_exponent : stof "11e-1".toList = .ok (.finite false 9227469 (-23)) := by decide

theorem stof_hexadecimal : stof "0x1.2p0".toList = .ok (.finite false 9437184 (-23)) := by
  decide

set_option maxRecDepth 8000 in
theorem stof_top :
    stof "340282356779733661637539395458142568448".toList
      = .error (.throws .out_of_range) := by decide

theorem exceeds_1_05_of_1_1 : exceeds_1_05 (.finite false 9227469 (-23)) = true := by decide

theorem exceeds_1_05_of_1_0 : exceeds_1_05 (.finite false 8388608 (-23)) = false := by decide

theorem exceeds_1_05_of_1_05 : exceeds_1_05 (.finite false 8808038 (-23)) = false := by
  decide

theorem exceeds_1_05_of_hexadecimal : exceeds_1_05 (.finite false 9437184 (-23)) = true := by
  decide

theorem write_completed_version (request : Request) (version : Str) (value : FloatVal)
    (hv : request.http_version = version) (hs : stof version = .ok value) :
    write_completed false request
      = .ok (if exceeds_1_05 value then .AWAIT_HEADERS else .CLOSE) := by
  unfold write_completed
  rw [hv, hs]
  rfl

theorem write_completed_await (ec : Bool) (request : Request) :
    write_completed ec request = .ok .AWAIT_HEADERS ↔
      ec = false ∧ ∃ value, stof request.http_version = .ok value ∧ exceeds_1_05 value = true := by
  cases ec with
  | true => simp [write_completed]
  | false =>
    cases hs : stof request.http_version with
    | error f => simp [write_completed, hs]
    | ok value =>
      cases hv : exceeds_1_05 value <;> simp [write_completed, hs, hv]

/-- C8 (amended). For a request whose `http_version` is written as decimal
digits with an optional fractional part, of value `v = m / 10^f`: when the write
of the response completes, `process_request_and_respond` is called once more
exactly when the write reported no error and `17616077 / 2^24 < v` (the
midpoint of the two `float`s around 1.05: `stof` rounds `v` to the nearest
`float` before the comparison with the `double` 1.05) and
`v < (2^25 - 1) * 2^103` (from there on `stof` throws `out_of_range`). A
write error closes the connection whatever the version, and a routed request
ends its cycle in the state `write_completed` gives. -/
theorem keep_alive_decimal (ec : Bool) (request : Request) (ip fp : Str)
    (hip : ip ≠ []) (hipd : ∀ c ∈ ip, c.isDigit = true) (hfpd : ∀ c ∈ fp, c.isDigit = true)
    (hform : request.http_version = ip ++ '.' :: fp ∨ (request.http_version = ip ∧ fp = [])) :
    (write_completed ec request = .ok .AWAIT_HEADERS ↔
      ec = false ∧ 17616077 * 10 ^ fp.length < decimal_number (ip ++ fp) * 2 ^ 24 ∧
        decimal_number (ip ++ fp) < (2 ^ 25 - 1) * 2 ^ 103 * 10 ^ fp.length) ∧
    write_completed true request = .ok .CLOSE ∧
    (∀ (re : RegexEngine) (table table2 : List (Str × MethodMap)) (incoming rest bytes : Str)
        (extra : Nat) (received : Request),
      receive_request incoming extra = .ok (some (received, rest)) →
      respond re table received = (table2, .ok (.write bytes request)) →
      process_request_and_respond re table incoming extra ec
        = (table2,
            match write_completed ec request with
            | .error f => .error f
            | .ok next => .ok { written := some bytes, next := next, incoming := rest })) := by
  refine ⟨?_, by simp [write_completed], ?_⟩
  · have hd : ∀ c ∈ ip ++ fp, c.isDigit = true := by
      intro c hc
      rcases List.mem_append.mp hc with h | h
      · exact hipd c h
      · exact hfpd c h
    rw [write_completed_await, stof_decimal request.http_version ip fp hip hipd hfpd hform,
      round_scaled_keep_alive, digits_value_decimal (ip ++ fp) hd]
  · intro re table table2 incoming rest bytes extra received hrecv hresp
    simp only [process_request_and_respond, hrecv, hresp]
    cases write_completed ec request <;> rfl

/-- C8 (amended) at version `1.1` with a successful write. -/
theorem keep_alive_decimal_witness :
    (write_completed false { http_version := "1.1".toList } = .ok .AWAIT_HEADERS ↔
      false = false ∧
        17616077 * 10 ^ "1".toList.length < decimal_number ("1".toList ++ "1".toList) * 2 ^ 24 ∧
        decimal_number ("1".toList ++ "1".toList)
          < (2 ^ 25 - 1) * 2 ^ 103 * 10 ^ "1".toList.length) ∧
    write_completed true { http_version := "1.1".toList } = .ok .CLOSE ∧
    (∀ (re : RegexEngine) (table table2 : List (Str × MethodMap)) (incoming rest bytes : Str)
        (extra : Nat) (received : Request),
      receive_request incoming extra = .ok (some (received, rest)) →
      respond re table received
        = (table2, .ok (.write bytes { http_version := "1.1".toList })) →
      process_request_and_respond re table incoming extra false
        = (table2,
            match write_completed false { http_version := "1.1".toList } with
            | .error f => .error f
            | .ok next => .ok { written := some bytes, next := next, incoming := rest })) :=
  keep_alive_decimal false { http_version := "1.1".toList } "1".toList "1".toList
    (by decide) (by decide) (by decide) (Or.inl rfl)

/-- C8 as first stated fails at version `1.05000001`: the number exceeds 1.05,
the write succeeded, and the connection is closed, because the nearest `float`
is below the `double` 1.05. A version of 39 digits at the upper midpoint
exceeds 1.05 as well and makes `stof` throw. The versions `1.1`, `11e-1` and
`0x1.2p0` keep the connection; `1.0` and `1.05` close it. -/
theorem keep_alive_rounds_version :
    write_completed false { http_version := "1.05000001".toList } = .ok .CLOSE ∧
    decimal_number "105000001".toList = 105000001 ∧
    105 * 10 ^ 8 < 105000001 * 10 ^ 2 ∧
    ¬ (write_completed false { http_version := "1.05000001".toList } = .ok .AWAIT_HEADERS ↔
        false = false ∧ 105 * 10 ^ 8 < decimal_number "105000001".toList * 10 ^ 2) ∧
    write_completed false
        { http_version := "340282356779733661637539395458142568448".toList }
      = .error (.throws .out_of_range) ∧
    write_completed false { http_version := "1.1".toList } = .ok .AWAIT_HEADERS ∧
    write_completed false { http_version := "11e-1".toList } = .ok .AWAIT_HEADERS ∧
    write_completed false { http_version := "0x1.2p0".toList } = .ok .AWAIT_HEADERS ∧
    write_completed false { http_version := "1.0".toList } = .ok .CLOSE ∧
    write_completed false { http_version := "1.05".toList } = .ok .CLOSE := by
  have h1 : write_completed false { http_version := "1.05000001".toList } = .ok .CLOSE := by
    rw [write_completed_version _ _ _ rfl stof_1_05000001, exceeds_1_05_of_1_05]
    rfl
  refine ⟨h1, by decide, by decide, ?_, ?_, ?_, ?_, ?_, ?_, ?_⟩
  · rw [h1]
    intro h
    have := h.mpr ⟨rfl, by decide⟩
    exact absurd this (by decide)
  · unfold write_completed
    rw [if_neg (by decide), stof_top]
  · rw [write_completed_version _ _ _ rfl stof_1_1, exceeds_1_05_of_1_1]
    rfl
  · rw [write_completed_version _ _ _ rfl stof_exponent, exceeds_1_05_of_1_1]
    rfl
  · rw [write_completed_version _ _ _ rfl stof_hexadecimal, exceeds_1_05_of_hexadecimal]
    rfl
  · rw [write_completed_version _ _ _ rfl stof_1_0, exceeds_1_05_of_1_0]
    rfl
  · rw [write_completed_version _ _ _ rfl stof_1_05, exceeds_1_05_of_1_05]
    rfl

/-! ## Evaluations at concrete requests -/

/-- C2. On a head whose lines all end with `"\r\n"` the three fields of the
request line `M P HTTP/V` are returned as they were written. A stream that
starts with such a request line and goes on with a line ended by a bare
`'\n'`, or that ends after the request line, makes the header loop execute
`pop_back` on an empty string. -/
theorem parse_request_line_then_empty_line :
    (∀ (M P V : Str) (ls : List Str) (rest : Str),
      ' ' ∉ M → ' ' ∉ P → ' ' ∉ V → '\n' ∉ M → '\n' ∉ P → '\n' ∉ V →
      (∀ l ∈ ls, '\n' ∉ l ∧ (regex_match_header_line l).isSome = true) →
      parse_request (istream (request_bytes
          (M ++ ' ' :: (P ++ ' ' :: 'H' :: 'T' :: 'T' :: 'P' :: '/' :: V)) ls ++ rest))
        = .ok ({ method := M, path := P, http_version := V, header := insert_headers [] ls },
               istream rest)) ∧
    parse_request (istream "GET / HTTP/1.1\r\n\n\r\n\r\n".toList) = .error .undefined_behaviour ∧
    find_delimiter "GET / HTTP/1.1\r\n\n\r\n\r\n".toList = some 21 ∧
    parse_request (istream "GET / HTTP/1.1\r\n".toList) = .error .undefined_behaviour := by
  refine ⟨?_, by decide, by decide, by decide⟩
  intro M P V ls rest hM hP hV hM2 hP2 hV2 hls
  apply parse_request_well_formed _ M P V ls rest _
    (regex_match_request_line_triple M P V hM hP hV) hls
  simp only [List.mem_append, List.mem_cons, not_or]
  refine ⟨hM2, by decide, hP2, by decide, by decide, by decide, by decide, by decide,
    by decide, hV2⟩

/-- C3. When the first line is not empty and, without its last character,
does not match the request-line pattern, `parse_request` returns the empty
request and has read that line only; a first line that is just `"\r\n"` is
such a line. On an empty stream, and on a stream whose first line is empty
before its last character is dropped, `pop_back` is executed on an empty
string. -/
theorem parse_request_empty_first_line :
    (∀ stream : IStream, (getline stream []).2 ≠ [] →
      regex_match_request_line (getline stream []).2.dropLast = none →
      parse_request stream = .ok ({}, (getline stream []).1)) ∧
    (∀ rest : Str, parse_request (istream ('\r' :: '\n' :: rest)) = .ok ({}, istream rest)) ∧
    parse_request (istream []) = .error .undefined_behaviour ∧
    parse_request (istream "\n\r\n\r\n".toList) = .error .undefined_behaviour ∧
    find_delimiter "\n\r\n\r\n".toList = some 5 := by
  refine ⟨?_, ?_, by decide, by decide, by decide⟩
  swap
  · intro rest
    have hg := getline_crlf [] rest [] (by simp)
    have e : getline (istream ('\r' :: '\n' :: rest)) [] = ({ buf := rest, good := true }, ['\r']) := by
      simpa [istream] using hg
    unfold parse_request
    rw [e]
    rfl
  intro stream hne hno
  unfold parse_request
  cases hl : (getline stream []).2 with
  | nil => exact absurd hl hne
  | cons c cs =>
    rw [hl] at hno
    simp only [pop_back, hno]

/-- C7. The byte count handed to `transfer_exactly` is the 64-bit difference
of the declared length and the bytes already buffered: `n - e` when `e ≤ n`,
and `n + 2^64 - e`, which is above `n`, when `e > n`. A request that declares
`Content-Length: 0` and arrives together with five more bytes asks for
`2^64 - 5` bytes. -/
theorem body_length_wraps :
    (∀ n e : Nat, e ≤ n → n < 2 ^ 64 → size_t_sub n e = n - e) ∧
    (∀ n e : Nat, n < e → e < 2 ^ 64 → size_t_sub n e = n + 2 ^ 64 - e ∧ n < size_t_sub n e) ∧
    async_read_until "POST /a HTTP/1.1\r\nContent-Length: 0\r\n\r\nhello".toList 5
      = (false, "POST /a HTTP/1.1\r\nContent-Length: 0\r\n\r\nhello".toList, 39, []) ∧
    headers_read false "POST /a HTTP/1.1\r\nContent-Length: 0\r\n\r\nhello".toList 39
      = .ok (.read_body 18446744073709551611
          { method := "POST".toList, path := "/a".toList, http_version := "1.1".toList,
            header := [("Content-Length".toList, "0".toList)] }
          "hello".toList) := by
  refine ⟨size_t_sub_le, ?_, by decide, by decide⟩
  intro n e h1 h2
  rw [size_t_sub_gt n e h1 h2]
  omega

/-- C9. A `Content-Length` value without digits makes `stoull` throw
`invalid_argument` and one above `2^64 - 1` makes it throw `out_of_range`,
out of the completion handler of `async_read_until`; a version without
digits makes `stof` throw `invalid_argument` out of the completion handler of
`async_write`, after the response was written. -/
theorem numeric_decoding_throws :
    receive_request "POST / HTTP/1.1\r\nContent-Length: abc\r\n\r\n".toList 0
      = .error (.throws .invalid_argument) ∧
    receive_request
        "POST / HTTP/1.1\r\nContent-Length: 99999999999999999999\r\n\r\n".toList 0
      = .error (.throws .out_of_range) ∧
    (process_request_and_respond literal_regex (single_route "/".toList "GET".toList)
        "GET / HTTP/x\r\n\r\n".toList 0 false).2
      = .error (.throws .invalid_argument) ∧
    (respond literal_regex (single_route "/".toList "GET".toList)
        { method := "GET".toList, path := "/".toList, http_version := "x".toList }).2
      = .ok (.write "ok".toList
          { method := "GET".toList, path := "/".toList, http_version := "x".toList,
            path_match := ["/".toList] }) := by
  refine ⟨by decide, by decide, by decide, by decide⟩

/-- C10. Byte sequences that contain `"\r\n\r\n"` on which `parse_request`
executes `pop_back` on an empty string (an empty first line, an empty header
line), and one on which `pop_back` removes a character that is not `'\r'`
(the `1` that ends a request line closed by a bare `'\n'`). -/
theorem pop_back_on_empty_line :
    find_delimiter "\n\r\n\r\n".toList = some 5 ∧
    pop_back (getline (istream "\n\r\n\r\n".toList) []).2 = .error .undefined_behaviour ∧
    find_delimiter "GET / HTTP/1.1\r\nHost: a\r\n\n\r\n\r\n".toList = some 30 ∧
    parse_request (istream "GET / HTTP/1.1\r\nHost: a\r\n\n\r\n\r\n".toList)
      = .error .undefined_behaviour ∧
    find_delimiter "GET / HTTP/1.1\n\r\n\r\n".toList = some 19 ∧
    parse_request (istream "GET / HTTP/1.1\n\r\n\r\n".toList)
      = .ok ({ method := "GET".toList, path := "/".toList, http_version := "1.".toList },
             istream "\r\n".toList) := by
  refine ⟨by decide, by decide, by decide, by decide, by decide, by decide⟩

end WebServer
